import Mathlib

/-!
# tmp_fs: a shallow embedding of `posix/subsystem/src/tmp_fs.cpp`

The file system keeps a tree of nodes and links in process memory.  Objects
that the C++ code reaches through pointers live here in an explicit object
store (`World`); methods become functions that take the store and return the
new store.  `size_t` and `uint64_t` values are natural numbers reduced modulo
`2 ^ 64` wherever the source computes with them; `assert` failures and
undefined behaviour are results in `Except Fault`.
-/

namespace tmp_fs

/-! ## Machine words and faults -/

/-- A byte of file content or of a name. -/
abbrev Byte := Nat

/-- The modulus of `size_t` and `uint64_t` arithmetic. -/
def wordSize : Nat := 2 ^ 64

/-- Ways in which a call does not return normally. -/
inductive Fault where
  /-- An `assert` of the source failed. -/
  | assertion
  /-- A `memcpy` touched bytes outside the mapping. -/
  | badAccess
  /-- A set iterator was used after the element it pointed to was erased. -/
  | invalidIterator
  /-- A `static_cast` to a node class was applied to an object of another class. -/
  | badCast
  /-- Signed overflow of the `int64_t` inode counter. -/
  | signedOverflow
  deriving DecidableEq, Repr

/-! ## MemoryNode and MemoryFile -/

/-- The members of `MemoryNode`.  The shared memory object `_memory` is
represented by its size in bytes (`none` is the null descriptor) and the
mapping `_mapping` by the length of the window it maps (`none` is the
default-constructed mapping).  `bytes` is the content of the shared memory
object, addressed from its start. -/
structure MemoryNode where
  memory : Option Nat
  mapping : Option Nat
  areaSize : Nat
  fileSize : Nat
  bytes : Nat → Byte

/-- `MemoryNode::MemoryNode`: `_areaSize{0}, _fileSize{0}`, no memory object and
no mapping.  The bytes that the kernel will hand out for pages allocated later
are not fixed by this code, they are the parameter `fill`. -/
def MemoryNode.new (fill : Nat → Byte) : MemoryNode :=
  { memory := none, mapping := none, areaSize := 0, fileSize := 0, bytes := fill }

/-- The rounding of `_resizeFile`: `(new_size + 0xFFF) & ~size_t(0xFFF)`. -/
def alignedSize (new_size : Nat) : Nat :=
  ((new_size + 0xFFF) % wordSize) &&& (wordSize - 1 - 0xFFF)

/-- Modelled from the spec: `helResizeMemory` and `helAllocateMemory` are
kernel calls whose code is not part of this repository; they are taken to
succeed (`HEL_CHECK` passes) and to yield a memory object of exactly the
requested size, a resize keeping the bytes already there. -/
def helMemory (_old : Option Nat) (aligned_size : Nat) : Option Nat :=
  some aligned_size

/-- `MemoryNode::_resizeFile`. -/
def MemoryNode._resizeFile (node : MemoryNode) (new_size : Nat) : MemoryNode :=
  let node := { node with fileSize := new_size }
  let aligned_size := alignedSize new_size
  if aligned_size ≤ node.areaSize then
    node
  else
    let memory :=
      match node.memory with
      | some m => helMemory (some m) aligned_size
      | none => helMemory none aligned_size
    { node with memory := memory, mapping := some aligned_size, areaSize := aligned_size }

/-- The members of `MemoryFile` that the file operations use. -/
structure MemoryFile where
  offset : Nat
  deriving DecidableEq, Repr

/-- `MemoryFile::MemoryFile`: `_offset{0}`. -/
def MemoryFile.new : MemoryFile := { offset := 0 }

/-- Modelled from the spec: `VfsSeek` is declared outside this file; these are
the three values of `whence` that `seek` distinguishes. -/
inductive VfsSeek where
  | absolute
  | relative
  | eof
  deriving DecidableEq, Repr

/-- Conversion of an `off_t` (or any integer) to `uint64_t`. -/
def toU64 (x : Int) : Nat := (x % (wordSize : Int)).toNat

/-- Conversion of a `uint64_t` to `off_t`. -/
def toI64 (x : Nat) : Int := if x < 2 ^ 63 then (x : Int) else (x : Int) - (wordSize : Int)

/-- `MemoryFile::seek`.  Returns the value handed back to the caller and the
file and node after the call. -/
def MemoryFile.seek (file : MemoryFile) (node : MemoryNode) (delta : Int) (whence : VfsSeek) :
    Int × MemoryFile × MemoryNode :=
  let file : MemoryFile :=
    match whence with
    | .absolute => { file with offset := toU64 delta }
    | .relative => { file with offset := toU64 ((file.offset : Int) + delta) }
    | .eof => { file with offset := toU64 ((file.offset : Int) + toU64 (delta + node.fileSize)) }
  (toI64 file.offset, file, node)

/-- Whether a `memcpy` of `len` bytes at `off` bytes past the start of the
mapping stays inside the mapping.  A copy of zero bytes touches nothing. -/
def mappingCovers (mapping : Option Nat) (off len : Nat) : Bool :=
  len == 0 ||
    match mapping with
    | some m => decide (off + len ≤ m)
    | none => false

/-- The bytes `[off, off + len)` of a memory object. -/
def readBytes (bytes : Nat → Byte) (off len : Nat) : List Byte :=
  (List.range len).map fun i => bytes (off + i)

/-- The memory object after `buffer` was copied to `off`. -/
def writeBytes (bytes : Nat → Byte) (off : Nat) (buffer : List Byte) : Nat → Byte :=
  fun p => if off ≤ p ∧ p < off + buffer.length then buffer.getD (p - off) 0 else bytes p

/-- `MemoryFile::readSome`.  Returns the chunk length, the bytes copied into
the caller's buffer, and the file and node after the call. -/
def MemoryFile.readSome (file : MemoryFile) (node : MemoryNode) (max_length : Nat) :
    Except Fault (Nat × List Byte × MemoryFile × MemoryNode) :=
  if ¬ file.offset ≤ node.fileSize then
    .error .assertion
  else
    let chunk := min (node.fileSize - file.offset) max_length
    if ¬ mappingCovers node.mapping file.offset chunk then
      .error .badAccess
    else
      let buffer := readBytes node.bytes file.offset chunk
      let file := { file with offset := (file.offset + chunk) % wordSize }
      .ok (chunk, buffer, file, node)

/-- `MemoryFile::writeAll`; `length` is the length of `buffer`. -/
def MemoryFile.writeAll (file : MemoryFile) (node : MemoryNode) (buffer : List Byte) :
    Except Fault (MemoryFile × MemoryNode) :=
  let length := buffer.length
  let node :=
    if (file.offset + length) % wordSize > node.fileSize then
      node._resizeFile ((file.offset + length) % wordSize)
    else node
  if ¬ mappingCovers node.mapping file.offset length then
    .error .badAccess
  else
    let node := { node with bytes := writeBytes node.bytes file.offset buffer }
    let file := { file with offset := (file.offset + length) % wordSize }
    .ok (file, node)

/-- `MemoryFile::truncate`. -/
def MemoryFile.truncate (file : MemoryFile) (node : MemoryNode) (size : Nat) :
    MemoryFile × MemoryNode :=
  (file, node._resizeFile size)

/-- `MemoryFile::allocate`. -/
def MemoryFile.allocate (file : MemoryFile) (node : MemoryNode) (offset : Int) (size : Nat) :
    Except Fault (MemoryFile × MemoryNode) :=
  if offset ≠ 0 then
    .error .assertion
  else if toU64 (offset + size) ≤ node.fileSize then
    .ok (file, node)
  else
    .ok (file, node._resizeFile (toU64 (offset + size)))

/-- `MemoryFile::accessMemory`: a duplicate of `_memory`, by its size. -/
def MemoryFile.accessMemory (file : MemoryFile) (node : MemoryNode) :
    Option Nat × MemoryFile × MemoryNode :=
  (node.memory, file, node)

/-! ## Names, links and the ordered entry sets -/

/-- A `std::string`, byte by byte. -/
abbrev Name := List Byte

/-- `operator<` of `std::string`: byte-wise lexicographic order, a proper
initial segment being smaller. -/
def nameLt : Name → Name → Bool
  | [], [] => false
  | [], _ :: _ => true
  | _ :: _, [] => false
  | a :: as, b :: bs => if a < b then true else if b < a then false else nameLt as bs

/-- The address of a node object.  Nodes are numbered in the order in which
they are constructed. -/
abbrev NodeId := Nat

/-- The members of `Link`, with the address of the object: two links with the
same members are still two objects. -/
structure Link where
  addr : Nat
  owner : Option NodeId
  name : Name
  target : NodeId
  deriving DecidableEq, Repr

/-- `Link::Link(target)`: the root link, without owner and name. -/
def Link.root (addr : Nat) (target : NodeId) : Link :=
  { addr := addr, owner := none, name := [], target := target }

/-- `Link::Link(owner, name, target)` with its two assertions. -/
def Link.new (addr : Nat) (owner : Option NodeId) (name : Name) (target : NodeId) :
    Except Fault Link :=
  if owner.isNone then .error .assertion
  else if name.isEmpty then .error .assertion
  else .ok { addr := addr, owner := owner, name := name, target := target }

/-- `Link::getOwner`. -/
def Link.getOwner (link : Link) : Option NodeId := link.owner

/-- `Link::getName`: the root link does not have a name. -/
def Link.getName (link : Link) : Except Fault Name :=
  if link.owner.isNone then .error .assertion else .ok link.name

/-- `Link::getTarget`. -/
def Link.getTarget (link : Link) : NodeId := link.target

/-- `LinkCompare::operator()(link, name)`.  The comparator is only ever run on
links that sit in an entry set; they were built by the three-argument
constructor, so the assertion of `getName` holds and the name is read
directly. -/
def LinkCompare.linkName (link : Link) (name : Name) : Bool := nameLt link.name name

/-- `LinkCompare::operator()(name, link)`. -/
def LinkCompare.nameLink (name : Name) (link : Link) : Bool := nameLt name link.name

/-- `LinkCompare::operator()(a, b)`. -/
def LinkCompare.linkLink (a b : Link) : Bool := nameLt a.name b.name

/-- A `std::set<std::shared_ptr<Link>, LinkCompare>`: its elements in
ascending order.  An iterator is the element it points to, `none` being
`end()`. -/
abbrev EntrySet := List Link

/-- `std::set::find(name)` with the transparent comparator: the first element
that is not less than `name`, unless `name` is less than it. -/
def EntrySet.find : EntrySet → Name → Option Link
  | [], _ => none
  | l :: rest, name =>
    if LinkCompare.linkName l name then EntrySet.find rest name
    else if LinkCompare.nameLink name l then none
    else some l

/-- `std::set::insert(link)`: the element goes to its place in the order; when
an equivalent element is there already nothing is inserted. -/
def EntrySet.insert : EntrySet → Link → EntrySet
  | [], link => [link]
  | l :: rest, link =>
    if LinkCompare.linkLink l link then l :: EntrySet.insert rest link
    else if LinkCompare.linkLink link l then link :: l :: rest
    else l :: rest

/-- `std::set::erase(it)`: the element that `it` points to leaves the set.
Erasing through an iterator whose element is no longer in the set is
undefined. -/
def EntrySet.erase (entries : EntrySet) (it : Link) : Except Fault EntrySet :=
  if it ∈ entries then .ok (List.erase entries it) else .error .invalidIterator

/-- `std::set::begin()`. -/
def EntrySet.begin (entries : EntrySet) : Option Link := entries.head?

/-- `it++` on an iterator that points to `it`: the first element after it in
the order.  Moving an iterator whose element was erased is undefined. -/
def EntrySet.next (entries : EntrySet) (it : Link) : Except Fault (Option Link) :=
  if it ∈ entries then .ok (entries.find? fun l => LinkCompare.linkLink it l)
  else .error .invalidIterator

/-! ## Nodes and the object store -/

/-- Modelled from the spec: `VfsType` is declared outside this file; these are
the node types of the data model. -/
inductive VfsType where
  | regular
  | directory
  | symlink
  | charDevice
  | blockDevice
  | socket
  | fifo
  deriving DecidableEq, Repr

/-- Modelled from the spec: `DeviceId` is declared outside this file, a pair
`(major, minor)`. -/
structure DeviceId where
  major : Nat
  minor : Nat
  deriving DecidableEq, Repr

/-- Modelled from the spec: the event kinds of `FsObserver` are declared
outside this file; `unlink` uses `FsObserver::deleteEvent`. -/
inductive ObserverEvent where
  | deleteEvent
  deriving DecidableEq, Repr

/-- One call of `notifyObservers(event, name, cookie)`. -/
structure Notification where
  event : ObserverEvent
  name : Name
  cookie : Nat
  deriving DecidableEq, Repr

/-- The members of `DirectoryNode`.  `notified` records the calls of
`notifyObservers` on this node, oldest first; the method itself belongs to
`FsNode`, outside this file. -/
structure DirectoryNode where
  treeLink : Option Link
  entries : EntrySet
  notified : List Notification

/-- `DirectoryNode::DirectoryNode`. -/
def DirectoryNode.new : DirectoryNode := { treeLink := none, entries := [], notified := [] }

/-- The members that the classes derived from `Node` add. -/
inductive NodeBody where
  | symlink (link : Name)
  | device (type : VfsType) (id : DeviceId)
  | socket
  | fifo (mode : Nat)
  | directory (dir : DirectoryNode)
  | inherited (path : Name)
  | memory (mem : MemoryNode)

/-- A node object: the member `_inodeNumber` of `Node` and the derived part. -/
structure Node where
  inodeNumber : Int
  body : NodeBody

/-- The members of `Superblock`. -/
structure Superblock where
  inodeCounter : Int

/-- `Superblock::allocateInode`: `return _inodeCounter++`.  Incrementing the
largest `int64_t` is undefined. -/
def Superblock.allocateInode (sb : Superblock) : Except Fault (Int × Superblock) :=
  if sb.inodeCounter ≥ 2 ^ 63 - 1 then .error .signedOverflow
  else .ok (sb.inodeCounter, { inodeCounter := sb.inodeCounter + 1 })

/-- The objects of the process: the superblock, the nodes constructed so far
(`node i` for `i < nodeCount`) and the number of links constructed so far. -/
structure World where
  superblock : Superblock
  nodeCount : Nat
  node : NodeId → Option Node
  linkCount : Nat

/-- The process before any node exists: `_inodeCounter = 1`. -/
def World.empty : World :=
  { superblock := { inodeCounter := 1 }, nodeCount := 0, node := fun _ => none, linkCount := 0 }

/-- `Node::Node`: the constructor of every node class draws its inode number
from the superblock; the new object gets the next address. -/
def World.construct (w : World) (body : NodeBody) : Except Fault (NodeId × World) :=
  match w.superblock.allocateInode with
  | .error e => .error e
  | .ok (ino, sb) =>
    .ok (w.nodeCount,
      { w with superblock := sb, nodeCount := w.nodeCount + 1,
               node := Function.update w.node w.nodeCount
                 (some { inodeNumber := ino, body := body }) })

/-- `static_cast<DirectoryNode *>` of a node pointer, followed by an access. -/
def World.directory (w : World) (id : NodeId) : Except Fault DirectoryNode :=
  match w.node id with
  | some { inodeNumber := _, body := .directory dir } => .ok dir
  | _ => .error .badCast

/-- Assignment to the members of the directory object at `id`. -/
def World.setDirectory (w : World) (id : NodeId) (dir : DirectoryNode) : World :=
  match w.node id with
  | some n => { w with node := Function.update w.node id (some { n with body := .directory dir }) }
  | none => w

/-- `std::make_shared<Link>(owner, name, target)`: the new link object gets
the next link address. -/
def World.makeLink (w : World) (owner : Option NodeId) (name : Name) (target : NodeId) :
    Except Fault (Link × World) :=
  match Link.new w.linkCount owner name target with
  | .error e => .error e
  | .ok link => .ok (link, { w with linkCount := w.linkCount + 1 })

/-- Assignment to members of the directory object at `id`, reached through a
`DirectoryNode *`. -/
def World.updateDirectory (w : World) (id : NodeId) (f : DirectoryNode → DirectoryNode) :
    Except Fault World :=
  match w.directory id with
  | .error e => .error e
  | .ok dir => .ok (w.setDirectory id (f dir))

/-! ## DirectoryNode -/

/-- `DirectoryNode::createRootDirectory`. -/
def DirectoryNode.createRootDirectory (w : World) : Except Fault (Link × World) :=
  match w.construct (.directory DirectoryNode.new) with
  | .error e => .error e
  | .ok (node, w) =>
    match ({ w with linkCount := w.linkCount + 1 } : World).updateDirectory node
        fun dir => { dir with treeLink := some (Link.root w.linkCount node) } with
    | .error e => .error e
    | .ok w' => .ok (Link.root w.linkCount node, w')

/-- `DirectoryNode::getLink`. -/
def DirectoryNode.getLink (w : World) (self : NodeId) (name : Name) :
    Except Fault (Option Link × World) :=
  match w.directory self with
  | .error e => .error e
  | .ok dir => .ok (dir.entries.find name, w)

/-- The three statements that end `link`, `symlink`, `mkdev` and `mkfifo`:
`make_shared<Link>(shared_from_this(), name, node)`, `_entries.insert(link)`,
`co_return link`. -/
def DirectoryNode.insertLink (w : World) (self : NodeId) (name : Name) (node : NodeId) :
    Except Fault (Link × World) :=
  match w.makeLink (some self) name node with
  | .error e => .error e
  | .ok (link, w) =>
    match w.updateDirectory self fun dir => { dir with entries := dir.entries.insert link } with
    | .error e => .error e
    | .ok w => .ok (link, w)

/-- The assertion that opens every creating method:
`assert(_entries.find(name) == _entries.end())`. -/
def DirectoryNode.assertAbsent (w : World) (self : NodeId) (name : Name) : Except Fault Unit :=
  match w.directory self with
  | .error e => .error e
  | .ok dir => if (dir.entries.find name).isSome then .error .assertion else .ok ()

/-- `DirectoryNode::link`. -/
def DirectoryNode.link (w : World) (self : NodeId) (name : Name) (target : NodeId) :
    Except Fault (Link × World) :=
  match DirectoryNode.assertAbsent w self name with
  | .error e => .error e
  | .ok () => DirectoryNode.insertLink w self name target

/-- Modelled from the spec: `Error` is declared outside this file; the spec
names its already-exists alternative. -/
inductive Error where
  | alreadyExists
  deriving DecidableEq, Repr

/-- `DirectoryNode::mkdir`.  The result is the `std::variant<Error, link>` of
the source. -/
def DirectoryNode.mkdir (w : World) (self : NodeId) (name : Name) :
    Except Fault (Sum Error Link × World) :=
  match DirectoryNode.assertAbsent w self name with
  | .error e => .error e
  | .ok () =>
    match w.construct (.directory DirectoryNode.new) with
    | .error e => .error e
    | .ok (node, w) =>
      match w.makeLink (some self) name node with
      | .error e => .error e
      | .ok (link, w) =>
        match w.updateDirectory node fun dir => { dir with treeLink := some link } with
        | .error e => .error e
        | .ok w =>
          match w.updateDirectory self
              fun dir => { dir with entries := dir.entries.insert link } with
          | .error e => .error e
          | .ok w => .ok (.inr link, w)

/-- `DirectoryNode::symlink`. -/
def DirectoryNode.symlink (w : World) (self : NodeId) (name : Name) (path : Name) :
    Except Fault (Link × World) :=
  match DirectoryNode.assertAbsent w self name with
  | .error e => .error e
  | .ok () =>
    match w.construct (.symlink path) with
    | .error e => .error e
    | .ok (node, w) => DirectoryNode.insertLink w self name node

/-- `DirectoryNode::mkdev`; the constructor of `DeviceNode` asserts the type
after the base constructor has run. -/
def DirectoryNode.mkdev (w : World) (self : NodeId) (name : Name) (type : VfsType)
    (id : DeviceId) : Except Fault (Link × World) :=
  match DirectoryNode.assertAbsent w self name with
  | .error e => .error e
  | .ok () =>
    match w.construct (.device type id) with
    | .error e => .error e
    | .ok (node, w) =>
      if type = .charDevice ∨ type = .blockDevice then DirectoryNode.insertLink w self name node
      else .error .assertion

/-- `DirectoryNode::mkfifo`.  The registration of the named channel
(`fifo::createNamedChannel`) happens outside this file and is not recorded. -/
def DirectoryNode.mkfifo (w : World) (self : NodeId) (name : Name) (mode : Nat) :
    Except Fault (Link × World) :=
  match DirectoryNode.assertAbsent w self name with
  | .error e => .error e
  | .ok () =>
    match w.construct (.fifo mode) with
    | .error e => .error e
    | .ok (node, w) => DirectoryNode.insertLink w self name node

/-- `DirectoryNode::unlink`. -/
def DirectoryNode.unlink (w : World) (self : NodeId) (name : Name) : Except Fault World :=
  match w.directory self with
  | .error e => .error e
  | .ok dir =>
    match dir.entries.find name with
    | none => .error .assertion
    | some it =>
      match dir.entries.erase it with
      | .error e => .error e
      | .ok entries =>
        .ok (w.setDirectory self
          { dir with entries := entries,
                     notified := dir.notified ++ [{ event := .deleteEvent, name := name, cookie := 0 }] })

/-! ## Superblock -/

/-- `Superblock::createRegular`. -/
def Superblock.createRegular (w : World) (fill : Nat → Byte) : Except Fault (NodeId × World) :=
  w.construct (.memory (MemoryNode.new fill))

/-- `Superblock::createSocket`. -/
def Superblock.createSocket (w : World) : Except Fault (NodeId × World) :=
  w.construct .socket

/-- `createMemoryNode`, which constructs an `InheritedNode`. -/
def createMemoryNode (w : World) (path : Name) : Except Fault (NodeId × World) :=
  w.construct (.inherited path)

/-- `createRoot`. -/
def createRoot (w : World) : Except Fault (Link × World) :=
  DirectoryNode.createRootDirectory w

/-- The statement of `rename` under the comment "Unlink an existing link if
such a link exists": `find(dest_name)` in the destination and, when it is
there, `erase(dest_it)`. -/
def Superblock.eraseExisting (w : World) (dest_dir : NodeId) (dest_name : Name) :
    Except Fault World :=
  match w.directory dest_dir with
  | .error e => .error e
  | .ok ddir =>
    match ddir.entries.find dest_name with
    | none => .ok w
    | some dest_it =>
      match ddir.entries.erase dest_it with
      | .error e => .error e
      | .ok entries => .ok (w.setDirectory dest_dir { ddir with entries := entries })

/-- `Superblock::rename`.  The iterator `it` found at the start is the source
link itself (that is asserted); `erase(it)` near the end is an erase through
that iterator in the source directory as it is by then. -/
def Superblock.rename (w : World) (src_link : Link) (dest_dir : NodeId) (dest_name : Name) :
    Except Fault (Link × World) :=
  match src_link.getName with
  | .error e => .error e
  | .ok src_name =>
    match src_link.getOwner with
    | none => .error .badCast
    | some src_dir =>
      match w.directory src_dir with
      | .error e => .error e
      | .ok sdir =>
        if sdir.entries.find src_name = some src_link then
          match Superblock.eraseExisting w dest_dir dest_name with
          | .error e => .error e
          | .ok w =>
            match w.makeLink (some dest_dir) dest_name src_link.getTarget with
            | .error e => .error e
            | .ok (new_link, w) =>
              match w.directory src_dir with
              | .error e => .error e
              | .ok sdir =>
                match sdir.entries.erase src_link with
                | .error e => .error e
                | .ok entries =>
                  match (w.setDirectory src_dir { sdir with entries := entries }).updateDirectory
                      dest_dir fun dir => { dir with entries := dir.entries.insert new_link } with
                  | .error e => .error e
                  | .ok w => .ok (new_link, w)
        else .error .assertion

/-! ## DirectoryFile -/

/-- The members of `DirectoryFile` that `readEntries` uses. -/
structure DirectoryFile where
  node : NodeId
  iter : Option Link
  deriving DecidableEq, Repr

/-- `DirectoryFile::DirectoryFile`: `_node` is the target of the link,
`_iter{_node->_entries.begin()}`. -/
def DirectoryFile.new (w : World) (link : Link) : Except Fault DirectoryFile :=
  match w.directory link.getTarget with
  | .error e => .error e
  | .ok dir => .ok { node := link.getTarget, iter := dir.entries.begin }

/-- `DirectoryFile::readEntries`. -/
def DirectoryFile.readEntries (w : World) (file : DirectoryFile) :
    Except Fault (Option Name × DirectoryFile × World) :=
  match w.directory file.node with
  | .error e => .error e
  | .ok dir =>
    match file.iter with
    | some link =>
      match link.getName with
      | .error e => .error e
      | .ok name =>
        match dir.entries.next link with
        | .error e => .error e
        | .ok iter => .ok (some name, { file with iter := iter }, w)
    | none => .ok (none, file, w)

/-- The results of `count` successive calls of `readEntries` on one handle. -/
def DirectoryFile.readEntriesTimes (w : World) :
    Nat → DirectoryFile → Except Fault (List (Option Name) × DirectoryFile × World)
  | 0, file => .ok ([], file, w)
  | count + 1, file =>
    match DirectoryFile.readEntries w file with
    | .error e => .error e
    | .ok (r, file, w') =>
      match DirectoryFile.readEntriesTimes w' count file with
      | .error e => .error e
      | .ok (rs, file, w'') => .ok (r :: rs, file, w'')

/-! ## Sequences of calls -/

/-- One call that creates a node or changes the tree. -/
inductive TreeOp where
  | createRoot
  | createRegular (fill : Nat → Byte)
  | createSocket
  | createMemoryNode (path : Name)
  | link (dir : NodeId) (name : Name) (target : NodeId)
  | mkdir (dir : NodeId) (name : Name)
  | symlink (dir : NodeId) (name : Name) (path : Name)
  | mkdev (dir : NodeId) (name : Name) (type : VfsType) (id : DeviceId)
  | mkfifo (dir : NodeId) (name : Name) (mode : Nat)
  | unlink (dir : NodeId) (name : Name)
  | rename (src_link : Link) (dest_dir : NodeId) (dest_name : Name)

/-- The objects after one call. -/
def TreeOp.run (op : TreeOp) (w : World) : Except Fault World :=
  match op with
  | .createRoot => (tmp_fs.createRoot w).map Prod.snd
  | .createRegular fill => (Superblock.createRegular w fill).map Prod.snd
  | .createSocket => (Superblock.createSocket w).map Prod.snd
  | .createMemoryNode path => (tmp_fs.createMemoryNode w path).map Prod.snd
  | .link dir name target => (DirectoryNode.link w dir name target).map Prod.snd
  | .mkdir dir name => (DirectoryNode.mkdir w dir name).map Prod.snd
  | .symlink dir name path => (DirectoryNode.symlink w dir name path).map Prod.snd
  | .mkdev dir name type id => (DirectoryNode.mkdev w dir name type id).map Prod.snd
  | .mkfifo dir name mode => (DirectoryNode.mkfifo w dir name mode).map Prod.snd
  | .unlink dir name => DirectoryNode.unlink w dir name
  | .rename src_link dest_dir dest_name =>
    (Superblock.rename w src_link dest_dir dest_name).map Prod.snd

/-- The objects after a sequence of calls, the first fault ending the run. -/
def runTreeOps : List TreeOp → World → Except Fault World
  | [], w => .ok w
  | op :: ops, w =>
    match op.run w with
    | .ok w => runTreeOps ops w
    | .error e => .error e

/-- The class invariant of a `MemoryNode` as the data model states it: the
area is page aligned and fits a machine word, the logical size fits the area,
and memory object and mapping are present exactly when the area is not empty,
both spanning the whole area. -/
structure MemoryNode.Inv (node : MemoryNode) : Prop where
  aligned : 4096 ∣ node.areaSize
  area_lt : node.areaSize < wordSize
  size_le : node.fileSize ≤ node.areaSize
  memory_eq : node.memory = if node.areaSize = 0 then none else some node.areaSize
  mapping_eq : node.mapping = if node.areaSize = 0 then none else some node.areaSize

/-- The scenario of the round trip: on a fresh node and a fresh handle, seek
to `O`, write `B`, seek to `O` again and read `B.length` bytes.  Returns the
count and the bytes that the read delivered. -/
def roundTrip (fill : Nat → Byte) (O : Nat) (B : List Byte) : Except Fault (Nat × List Byte) :=
  let node := MemoryNode.new fill
  let file := MemoryFile.new
  let s₁ := file.seek node (toI64 O) .absolute
  match s₁.2.1.writeAll s₁.2.2 B with
  | .error e => .error e
  | .ok (file, node) =>
    let s₂ := file.seek node (toI64 O) .absolute
    match s₂.2.1.readSome s₂.2.2 B.length with
    | .error e => .error e
    | .ok (n, data, _, _) => .ok (n, data)

/-- A node that holds the six bytes `abcdef`. -/
def sampleNode : MemoryNode :=
  { memory := some 4096, mapping := some 4096, areaSize := 4096, fileSize := 6,
    bytes := writeBytes (fun _ => 0) 0 [97, 98, 99, 100, 101, 102] }

/-- One call on a regular node through some open handle: `truncate(size)`,
`writeAll` of `buffer` through a handle whose offset is `offset`, or
`allocate(offset, size)`. -/
inductive MemoryOp where
  | truncate (size : Nat)
  | writeAll (offset : Nat) (buffer : List Byte)
  | allocate (offset : Int) (size : Nat)

/-- The node after one call. -/
def MemoryOp.run (op : MemoryOp) (node : MemoryNode) : Except Fault MemoryNode :=
  match op with
  | .truncate size => .ok (MemoryFile.truncate { offset := 0 } node size).2
  | .writeAll offset buffer =>
    match MemoryFile.writeAll { offset := offset } node buffer with
    | .ok (_, node) => .ok node
    | .error e => .error e
  | .allocate offset size =>
    match MemoryFile.allocate { offset := 0 } node offset size with
    | .ok (_, node) => .ok node
    | .error e => .error e

/-- The node after a sequence of calls, the first fault ending the run. -/
def runMemoryOps : List MemoryOp → MemoryNode → Except Fault MemoryNode
  | [], node => .ok node
  | op :: ops, node =>
    match op.run node with
    | .ok node => runMemoryOps ops node
    | .error e => .error e

/-! ## Sample trees -/

/-- The entry set of the directory at `id`. -/
def World.entries (w : World) (id : NodeId) : Except Fault EntrySet :=
  match w.directory id with
  | .ok dir => .ok dir.entries
  | .error e => .error e

/-- The calls that build `sampleTree`: `createRoot`, `mkdir("a")`,
`mkdir("b")`, `symlink("c", "/tmp")`. -/
def sampleTreeOps : List TreeOp :=
  [.createRoot, .mkdir 0 [97], .mkdir 0 [98], .symlink 0 [99] [47, 116, 109, 112]]

/-- A root directory (node 0) with the directories `a` (node 1) and `b`
(node 2) and the symlink `c` (node 3). -/
def sampleTree : World :=
  match runTreeOps sampleTreeOps World.empty with
  | .ok w => w
  | .error _ => World.empty

/-- The link named `a` in the root of `sampleTree`. -/
def linkA : Link := { addr := 1, owner := some 0, name := [97], target := 1 }

/-- The link named `b` in the root of `sampleTree`. -/
def linkB : Link := { addr := 2, owner := some 0, name := [98], target := 2 }

/-- The link named `c` in the root of `sampleTree`. -/
def linkC : Link := { addr := 3, owner := some 0, name := [99], target := 3 }

/-- The root directory object of `sampleTree`. -/
def sampleRoot : DirectoryNode :=
  { treeLink := some (Link.root 0 0), entries := [linkA, linkB, linkC], notified := [] }

/-- The calls that build `sampleHardLinks`: `createRoot`, `createRegular`,
`link("a", node 1)`, `link("b", node 1)`. -/
def sampleHardLinksOps : List TreeOp :=
  [.createRoot, .createRegular (fun _ => 0), .link 0 [97] 1, .link 0 [98] 1]

/-- A root directory (node 0) in which `a` and `b` are two links to the same
regular node (node 1). -/
def sampleHardLinks : World :=
  match runTreeOps sampleHardLinksOps World.empty with
  | .ok w => w
  | .error _ => World.empty

/-- The link named `a` in the root of `sampleHardLinks`. -/
def hardLinkA : Link := { addr := 1, owner := some 0, name := [97], target := 1 }

/-- The link named `b` in the root of `sampleHardLinks`. -/
def hardLinkB : Link := { addr := 2, owner := some 0, name := [98], target := 1 }

/-- The calls of `sampleTreeOps` followed by `rename(a, root, "b")` and
`unlink("c")`. -/
def sampleMutationOps : List TreeOp :=
  sampleTreeOps ++ [.rename linkA 0 [98], .unlink 0 [99]]

/-- The objects after `sampleMutationOps`. -/
def sampleMutated : World :=
  match runTreeOps sampleMutationOps World.empty with
  | .ok w => w
  | .error _ => World.empty

/-- The root directory object of `sampleMutated`. -/
def sampleMutatedRoot : DirectoryNode :=
  { treeLink := some (Link.root 0 0),
    entries := [{ addr := 4, owner := some 0, name := [98], target := 1 }],
    notified := [{ event := .deleteEvent, name := [99], cookie := 0 }] }

/-! ## Invariants -/

/-- The entries are in strictly ascending order of their names. -/
def EntrySet.Sorted (entries : EntrySet) : Prop :=
  entries.Pairwise fun a b => nameLt a.name b.name = true

/-- The class invariant of a `DirectoryNode` at address `addr`: the entry set
is ordered, and every entry was built by the three-argument constructor of
`Link` with this directory as owner. -/
structure DirectoryNode.WF (addr : NodeId) (dir : DirectoryNode) : Prop where
  sorted : EntrySet.Sorted dir.entries
  owned : ∀ l ∈ dir.entries, l.owner = some addr ∧ l.name ≠ []

/-- The invariant of the object store: every directory satisfies its class
invariant, the inode counter is one ahead of the number of nodes, and the
node at address `i` carries inode number `i + 1`. -/
structure World.Inv (w : World) : Prop where
  dirs : ∀ id dir, w.directory id = .ok dir → dir.WF id
  counter : w.superblock.inodeCounter = (w.nodeCount : Int) + 1
  inodes : ∀ i, i < w.nodeCount → ∃ n, w.node i = some n ∧ n.inodeNumber = (i : Int) + 1

/-! ## File statistics -/

/-- Modelled from the spec: `FileStats` is declared outside this file; these
are the two members that the spec names, zero in a value-initialised
`FileStats stats{}`. -/
structure FileStats where
  inodeNumber : Int
  fileSize : Nat
  deriving DecidableEq, Repr

/-- `FileStats stats{}`. -/
def FileStats.zero : FileStats := { inodeNumber := 0, fileSize := 0 }

/-- `Node::getStats`: `stats.inodeNumber = _inodeNumber`. -/
def Node.getStats (node : Node) : FileStats :=
  { FileStats.zero with inodeNumber := node.inodeNumber }

/-- `MemoryNode::getStats`, the override: `stats.fileSize = _fileSize`. -/
def MemoryNode.getStats (mem : MemoryNode) : FileStats :=
  { FileStats.zero with fileSize := mem.fileSize }

/-- The virtual call `node->getStats()`: `MemoryNode` overrides the method,
every other node class inherits `Node::getStats`. -/
def Node.stats (node : Node) : FileStats :=
  match node.body with
  | .memory mem => mem.getStats
  | _ => node.getStats

/-- The statistics of the node at `id`. -/
def World.stats (w : World) (id : NodeId) : Option FileStats :=
  match w.node id with
  | some node => some node.stats
  | none => none

/-! ## More invariants -/

/-- The memory object and the mapping are there exactly when the area is not
empty, and then both span the area. -/
structure MemoryNode.Backed (node : MemoryNode) : Prop where
  memory_eq : node.memory = if node.areaSize = 0 then none else some node.areaSize
  mapping_eq : node.mapping = if node.areaSize = 0 then none else some node.areaSize

/-- The calls that build `sampleGrown`: one byte written at offset 5000, then
`truncate(0)`. -/
def sampleGrownOps : List MemoryOp := [.writeAll 5000 [88], .truncate 0]

/-- A node that was grown to two pages and then truncated to nothing. -/
def sampleGrown : MemoryNode :=
  match runMemoryOps sampleGrownOps (MemoryNode.new fun _ => 0) with
  | .ok node => node
  | .error _ => MemoryNode.new fun _ => 0

/-! ## More sample trees -/

/-- `DirectoryNode::treeLink`, called on the directory object at `id`. -/
def World.treeLink (w : World) (id : NodeId) : Except Fault (Option Link) :=
  match w.directory id with
  | .ok dir => .ok dir.treeLink
  | .error e => .error e

/-- The calls that build `sampleOneDir`: `createRoot`, `mkdir("a")`. -/
def sampleOneDirOps : List TreeOp := [.createRoot, .mkdir 0 [97]]

/-- A root directory (node 0) with the one directory `a` (node 1), named by
`linkA`. -/
def sampleOneDir : World :=
  match runTreeOps sampleOneDirOps World.empty with
  | .ok w => w
  | .error _ => World.empty

/-- The link that `rename(a, root, "b")` creates in `sampleOneDir`. -/
def renamedLinkB : Link := { addr := 2, owner := some 0, name := [98], target := 1 }

/-- The objects after `rename(a, root, "b")` in `sampleOneDir`. -/
def sampleRenamed : World :=
  match Superblock.rename sampleOneDir linkA 0 [98] with
  | .ok (_, w) => w
  | .error _ => World.empty

/-- The directory object `b` (node 2) of `sampleTree`. -/
def sampleDirB : DirectoryNode := { treeLink := some linkB, entries := [], notified := [] }

/-! ## Sample nodes outside the class invariant -/

/-- A fresh node after `truncate(2 ^ 64 - 1)`: the rounding of `_resizeFile`
wraps to `0`, so the file size is `2 ^ 64 - 1` while the area is empty and
nothing is mapped. -/
def sampleOverflowed : MemoryNode :=
  (MemoryFile.new.truncate (MemoryNode.new fun _ => 0) (2 ^ 64 - 1)).2

/-- The handle and the node after the two bytes `7, 8` were written into
`sampleNode` at offset 2. -/
def sampleWritten : MemoryFile × MemoryNode :=
  match MemoryFile.writeAll { offset := 2 } sampleNode [7, 8] with
  | .ok r => r
  | .error _ => (MemoryFile.new, sampleNode)

/-! ## Theorems: word arithmetic -/

theorem land_pageMask (x : Nat) (hx : x < 2 ^ 64) :
    x &&& (2 ^ 64 - 1 - 0xFFF) = x / 4096 * 4096 := by
  apply Nat.eq_of_testBit_eq
  intro i
  have hm : (2 ^ 64 - 1 - 0xFFF : Nat) = (2 ^ 52 - 1) <<< 12 := by
    norm_num [Nat.shiftLeft_eq]
  have hd : x / 4096 * 4096 = (x >>> 12) <<< 12 := by
    rw [Nat.shiftLeft_eq, Nat.shiftRight_eq_div_pow]
  rw [hm, hd, Nat.testBit_and, Nat.testBit_shiftLeft, Nat.testBit_shiftLeft,
    Nat.testBit_two_pow_sub_one, Nat.testBit_shiftRight]
  by_cases h12 : 12 ≤ i
  · have e : 12 + (i - 12) = i := by omega
    by_cases h64 : i < 64
    · have : i - 12 < 52 := by omega
      simp [h12, this, e]
    · have hlt : x.testBit i = false := by
        apply Nat.testBit_lt_two_pow
        calc x < 2 ^ 64 := hx
          _ ≤ 2 ^ i := Nat.pow_le_pow_right (by norm_num) (by omega)
      simp [h12, hlt, e]
  · simp [h12]

theorem alignedSize_eq (n : Nat) :
    alignedSize n = (n + 4095) % 2 ^ 64 / 4096 * 4096 := by
  unfold alignedSize wordSize
  exact land_pageMask _ (Nat.mod_lt _ (by norm_num))

theorem alignedSize_dvd (n : Nat) : 4096 ∣ alignedSize n := by
  rw [alignedSize_eq]
  exact Dvd.intro_left _ rfl

theorem alignedSize_lt (n : Nat) : alignedSize n < wordSize := by
  rw [alignedSize_eq]
  unfold wordSize
  have h : (n + 4095) % 2 ^ 64 < 2 ^ 64 := Nat.mod_lt _ (by norm_num)
  have := Nat.div_mul_le_self ((n + 4095) % 2 ^ 64) 4096
  omega

theorem alignedSize_ge (n : Nat) (h : n + 4095 < wordSize) : n ≤ alignedSize n := by
  rw [alignedSize_eq]
  unfold wordSize at h
  rw [Nat.mod_eq_of_lt h]
  omega

theorem alignedSize_le_of_le (n a : Nat) (hn : n ≤ a) (ha : 4096 ∣ a) : alignedSize n ≤ a := by
  rw [alignedSize_eq]
  obtain ⟨k, rfl⟩ := ha
  have h1 : (n + 4095) % 2 ^ 64 ≤ n + 4095 := Nat.mod_le _ _
  omega

theorem toU64_toI64 (x : Nat) (hx : x < wordSize) : toU64 (toI64 x) = x := by
  unfold toU64 toI64 wordSize at *
  split <;> omega

/-! ## Theorems: the memory node -/

theorem readBytes_length (bytes : Nat → Byte) (off len : Nat) :
    (readBytes bytes off len).length = len := by
  simp [readBytes]

theorem readBytes_writeBytes (bytes : Nat → Byte) (off : Nat) (B : List Byte) :
    readBytes (writeBytes bytes off B) off B.length = B := by
  apply List.ext_getElem
  · simp [readBytes]
  · intro i h₁ h₂
    simp [readBytes, writeBytes, h₂]

theorem MemoryNode.new_inv (fill : Nat → Byte) : (MemoryNode.new fill).Inv :=
  ⟨by simp [MemoryNode.new], by simp [MemoryNode.new, wordSize], by simp [MemoryNode.new],
    by simp [MemoryNode.new], by simp [MemoryNode.new]⟩

theorem MemoryNode.resizeFile_keep (node : MemoryNode) (n : Nat)
    (h : alignedSize n ≤ node.areaSize) :
    node._resizeFile n = { node with fileSize := n } := by
  unfold MemoryNode._resizeFile
  simp [h]

theorem MemoryNode.resizeFile_grow (node : MemoryNode) (n : Nat)
    (h : node.areaSize < alignedSize n) :
    node._resizeFile n =
      { node with fileSize := n, memory := some (alignedSize n),
                  mapping := some (alignedSize n), areaSize := alignedSize n } := by
  unfold MemoryNode._resizeFile
  have h2 : ¬ alignedSize n ≤ node.areaSize := by omega
  cases hm : node.memory <;> simp [h2, helMemory]

/-- What `_resizeFile` leaves behind, spelled out for both branches. -/
theorem MemoryNode.resizeFile_spec (node : MemoryNode) (n : Nat) :
    (node._resizeFile n).fileSize = n ∧
    (node._resizeFile n).bytes = node.bytes ∧
    (node._resizeFile n).areaSize = max node.areaSize (alignedSize n) ∧
    (alignedSize n ≤ node.areaSize → (node._resizeFile n).memory = node.memory ∧
      (node._resizeFile n).mapping = node.mapping) ∧
    (node.areaSize < alignedSize n → (node._resizeFile n).memory = some (alignedSize n) ∧
      (node._resizeFile n).mapping = some (alignedSize n)) := by
  by_cases h : alignedSize n ≤ node.areaSize
  · rw [node.resizeFile_keep n h]
    exact ⟨rfl, rfl, (Nat.max_eq_left h).symm, fun _ => ⟨rfl, rfl⟩, fun h2 => absurd h (by omega)⟩
  · have h1 : node.areaSize < alignedSize n := by omega
    rw [node.resizeFile_grow n h1]
    exact ⟨rfl, rfl, (Nat.max_eq_right (Nat.le_of_lt h1)).symm, fun h2 => absurd h2 h,
      fun _ => ⟨rfl, rfl⟩⟩

/-- The backing area never shrinks in a resize. -/
theorem MemoryNode.resizeFile_area_mono (node : MemoryNode) (n : Nat) :
    node.areaSize ≤ (node._resizeFile n).areaSize := by
  rw [(node.resizeFile_spec n).2.2.1]
  exact Nat.le_max_left _ _

/-- The backing area stays page aligned in a resize. -/
theorem MemoryNode.resizeFile_area_aligned (node : MemoryNode) (n : Nat)
    (h : 4096 ∣ node.areaSize) : 4096 ∣ (node._resizeFile n).areaSize := by
  rw [(node.resizeFile_spec n).2.2.1]
  rcases Nat.le_total node.areaSize (alignedSize n) with h1 | h1
  · rw [Nat.max_eq_right h1]
    exact alignedSize_dvd n
  · rw [Nat.max_eq_left h1]
    exact h

/-- A resize to a size whose rounding does not wrap keeps the class invariant. -/
theorem MemoryNode.resizeFile_inv (node : MemoryNode) (n : Nat) (h : node.Inv)
    (hn : n + 4095 < wordSize) : (node._resizeFile n).Inv := by
  obtain ⟨hf, hb, ha, hkeep, hgrow⟩ := node.resizeFile_spec n
  have hge := alignedSize_ge n hn
  have hlt := alignedSize_lt n
  rcases Nat.lt_or_ge node.areaSize (alignedSize n) with h1 | h1
  · obtain ⟨hm, hp⟩ := hgrow h1
    have ha2 : (node._resizeFile n).areaSize = alignedSize n := by
      rw [ha]
      exact Nat.max_eq_right (Nat.le_of_lt h1)
    have hne : alignedSize n ≠ 0 := by omega
    exact ⟨by rw [ha2]; exact alignedSize_dvd n, by rw [ha2]; exact hlt,
      by rw [ha2, hf]; exact hge, by rw [ha2, hm, if_neg hne], by rw [ha2, hp, if_neg hne]⟩
  · obtain ⟨hm, hp⟩ := hkeep h1
    have ha2 : (node._resizeFile n).areaSize = node.areaSize := by
      rw [ha]
      exact Nat.max_eq_left h1
    exact ⟨by rw [ha2]; exact h.aligned, by rw [ha2]; exact h.area_lt,
      by rw [ha2, hf]; omega, by rw [ha2, hm]; exact h.memory_eq,
      by rw [ha2, hp]; exact h.mapping_eq⟩

theorem sampleNode_inv : sampleNode.Inv :=
  ⟨by decide, by decide, by decide, by decide, by decide⟩

/-- C1, the part that holds: when rounding `O + L` up to a page does not wrap
the machine word, the round trip on a fresh file returns `L` and delivers
exactly the bytes written. -/
theorem roundTrip_returns_written_bytes (fill : Nat → Byte) (O : Nat) (B : List Byte)
    (h : O + B.length + 4095 < wordSize) :
    roundTrip fill O B = .ok (B.length, B) := by
  have hO : O < wordSize := by omega
  have hmod : (O + B.length) % wordSize = O + B.length := Nat.mod_eq_of_lt (by omega)
  have hge := alignedSize_ge (O + B.length) h
  unfold roundTrip
  simp only [MemoryFile.seek, MemoryFile.new, toU64_toI64 O hO, MemoryFile.writeAll, hmod]
  by_cases hz : O + B.length = 0
  · have hB : B = [] := List.eq_nil_of_length_eq_zero (by omega)
    have hO0 : O = 0 := by omega
    subst hB hO0
    simp [MemoryNode.new, mappingCovers, MemoryFile.readSome, readBytes]
  · have hpos : O + B.length > (MemoryNode.new fill).fileSize := by
      simp [MemoryNode.new]; omega
    have hgrow : (MemoryNode.new fill).areaSize < alignedSize (O + B.length) := by
      simp [MemoryNode.new]; omega
    rw [if_pos hpos, (MemoryNode.new fill).resizeFile_grow _ hgrow]
    have hc : mappingCovers (some (alignedSize (O + B.length))) O B.length = true := by
      simp [mappingCovers, hge]
    have hc2 : mappingCovers (some (alignedSize (O + B.length))) O
        (min (O + B.length - O) B.length) = true := by
      simp [mappingCovers]; right; omega
    simp [hc, MemoryFile.readSome, toU64_toI64 O hO, hc2, readBytes_writeBytes]

/-- C1: at offset `2 ^ 64 - 2` the write of one byte makes `_resizeFile` round
`2 ^ 64 - 1` up to `0`; no memory is mapped and the copy leaves the mapping. -/
theorem roundTrip_faults_at_word_limit :
    roundTrip (fun _ => 0) (2 ^ 64 - 2) [7] = .error .badAccess := by
  rfl

/-- C2: `truncate(2 ^ 64 - 1)` on a fresh node leaves `file_size = 2 ^ 64 - 1`
above `area_size = 0`. -/
theorem truncate_word_max_exceeds_area :
    (MemoryFile.new.truncate (MemoryNode.new fun _ => 0) (2 ^ 64 - 1)).2.fileSize = 2 ^ 64 - 1 ∧
    (MemoryFile.new.truncate (MemoryNode.new fun _ => 0) (2 ^ 64 - 1)).2.areaSize = 0 := by
  decide

/-- C2, the part that holds at every call: the area never shrinks and stays a
multiple of the page size. -/
theorem MemoryOp.run_area (op : MemoryOp) (node node' : MemoryNode)
    (h : op.run node = .ok node') :
    node.areaSize ≤ node'.areaSize ∧ (4096 ∣ node.areaSize → 4096 ∣ node'.areaSize) := by
  cases op with
  | truncate size =>
    simp only [MemoryOp.run, MemoryFile.truncate, Except.ok.injEq] at h
    subst h
    exact ⟨node.resizeFile_area_mono size, node.resizeFile_area_aligned size⟩
  | writeAll offset buffer =>
    by_cases hr : (offset + buffer.length) % wordSize > node.fileSize
    · by_cases hc : mappingCovers (node._resizeFile ((offset + buffer.length) % wordSize)).mapping
          offset buffer.length = true
      · simp only [MemoryOp.run, MemoryFile.writeAll, hr, hc, if_true, not_true, if_false,
          Except.ok.injEq] at h
        subst h
        exact ⟨node.resizeFile_area_mono _, node.resizeFile_area_aligned _⟩
      · simp [MemoryOp.run, MemoryFile.writeAll, hr, hc] at h
    · by_cases hc : mappingCovers node.mapping offset buffer.length = true
      · simp only [MemoryOp.run, MemoryFile.writeAll, hr, hc, if_true, not_true, if_false,
          Except.ok.injEq] at h
        subst h
        exact ⟨Nat.le_refl _, id⟩
      · simp [MemoryOp.run, MemoryFile.writeAll, hr, hc] at h
  | allocate offset size =>
    by_cases h0 : offset ≠ 0
    · simp [MemoryOp.run, MemoryFile.allocate, h0] at h
    · by_cases hs : toU64 (offset + size) ≤ node.fileSize
      · simp only [MemoryOp.run, MemoryFile.allocate, h0, hs, if_true, if_false,
          Except.ok.injEq] at h
        subst h
        exact ⟨Nat.le_refl _, id⟩
      · simp only [MemoryOp.run, MemoryFile.allocate, h0, hs, if_true, if_false,
          Except.ok.injEq] at h
        subst h
        exact ⟨node.resizeFile_area_mono _, node.resizeFile_area_aligned _⟩

/-- C2, the part that holds over every sequence of calls that returns: the
area at the end is not smaller than at the start and stays a multiple of the
page size. -/
theorem runMemoryOps_area (ops : List MemoryOp) (node node' : MemoryNode)
    (h : runMemoryOps ops node = .ok node') :
    node.areaSize ≤ node'.areaSize ∧ (4096 ∣ node.areaSize → 4096 ∣ node'.areaSize) := by
  induction ops generalizing node with
  | nil =>
    simp only [runMemoryOps, Except.ok.injEq] at h
    subst h
    exact ⟨Nat.le_refl _, id⟩
  | cons op ops ih =>
    simp only [runMemoryOps] at h
    split at h
    · rename_i node₁ h₁
      have hs := op.run_area node node₁ h₁
      have hr := ih node₁ h
      exact ⟨Nat.le_trans hs.1 hr.1, fun hd => hr.2 (hs.2 hd)⟩
    · cases h

/-- C8, the part that holds: on a regular file that satisfies the class
invariant (which the code does not keep once the rounding of `_resizeFile` has wrapped), `truncate(S)`
with `S < file_size` sets `file_size` to `S`, leaves the area size, the memory
object, the mapping and the content as they were, and `readSome` through a
handle at offset `S` then returns zero bytes. -/
theorem truncate_shrinks_logical_size_only (file : MemoryFile) (node : MemoryNode)
    (S max_length : Nat) (h : node.Inv) (hS : S < node.fileSize) :
    (file.truncate node S).1 = file ∧
    (file.truncate node S).2.fileSize = S ∧
    (file.truncate node S).2.areaSize = node.areaSize ∧
    (file.truncate node S).2.memory = node.memory ∧
    (file.truncate node S).2.mapping = node.mapping ∧
    (file.truncate node S).2.bytes = node.bytes ∧
    MemoryFile.readSome { offset := S } (file.truncate node S).2 max_length =
      .ok (0, [], { offset := S }, (file.truncate node S).2) := by
  have hle : alignedSize S ≤ node.areaSize :=
    alignedSize_le_of_le S node.areaSize (by have := h.size_le; omega) h.aligned
  have hlt : S < wordSize := by
    have := h.size_le
    have := h.area_lt
    omega
  have e : file.truncate node S = (file, { node with fileSize := S }) := by
    simp only [MemoryFile.truncate, node.resizeFile_keep S hle]
  rw [e]
  refine ⟨rfl, rfl, rfl, rfl, rfl, rfl, ?_⟩
  simp [MemoryFile.readSome, mappingCovers, readBytes, Nat.mod_eq_of_lt hlt]

/-- The shrinking `truncate` at a concrete file: `sampleNode` holds six bytes,
`truncate(3)`. -/
theorem truncate_shrinks_logical_size_only_sample :
    (MemoryFile.new.truncate sampleNode 3).1 = MemoryFile.new ∧
    (MemoryFile.new.truncate sampleNode 3).2.fileSize = 3 ∧
    (MemoryFile.new.truncate sampleNode 3).2.areaSize = sampleNode.areaSize ∧
    (MemoryFile.new.truncate sampleNode 3).2.memory = sampleNode.memory ∧
    (MemoryFile.new.truncate sampleNode 3).2.mapping = sampleNode.mapping ∧
    (MemoryFile.new.truncate sampleNode 3).2.bytes = sampleNode.bytes ∧
    MemoryFile.readSome { offset := 3 } (MemoryFile.new.truncate sampleNode 3).2 16 =
      .ok (0, [], { offset := 3 }, (MemoryFile.new.truncate sampleNode 3).2) :=
  truncate_shrinks_logical_size_only MemoryFile.new sampleNode 3 16 sampleNode_inv (by decide)

/-- C9, the part that holds: on a regular file that satisfies the class
invariant (which the code does not keep once the rounding of `_resizeFile` has wrapped) and a handle with
`offset ≤ file_size`, `readSome` returns `n = min (file_size - offset) max_len`,
delivers the bytes at `[offset, offset + n)`, moves the offset by `n` and
leaves the node as it was; `n` is zero exactly when the offset is at the end of
the file or `max_len` is zero. -/
theorem readSome_contract (file : MemoryFile) (node : MemoryNode) (max_length : Nat)
    (h : node.Inv) (ho : file.offset ≤ node.fileSize) :
    file.readSome node max_length =
      .ok (min (node.fileSize - file.offset) max_length,
           (List.range (min (node.fileSize - file.offset) max_length)).map
             (fun i => node.bytes (file.offset + i)),
           { offset := file.offset + min (node.fileSize - file.offset) max_length },
           node) ∧
    (min (node.fileSize - file.offset) max_length = 0 ↔
      file.offset = node.fileSize ∨ max_length = 0) := by
  have h1 := h.size_le
  have h2 := h.area_lt
  constructor
  · have hc : mappingCovers node.mapping file.offset
        (min (node.fileSize - file.offset) max_length) = true := by
      rw [h.mapping_eq]
      by_cases hz : node.areaSize = 0
      · have : min (node.fileSize - file.offset) max_length = 0 := by omega
        simp [mappingCovers, this]
      · simp only [mappingCovers, hz, if_false, Bool.or_eq_true, decide_eq_true_eq]
        right
        omega
    have hm : (file.offset + min (node.fileSize - file.offset) max_length) % wordSize =
        file.offset + min (node.fileSize - file.offset) max_length :=
      Nat.mod_eq_of_lt (by omega)
    simp [MemoryFile.readSome, ho, hc, hm, readBytes]
  · omega

/-- The read at a concrete file: four bytes are asked of `sampleNode` at offset 4,
two are left. -/
theorem readSome_contract_sample :
    MemoryFile.readSome { offset := 4 } sampleNode 4 =
      .ok (min (sampleNode.fileSize - 4) 4,
           (List.range (min (sampleNode.fileSize - 4) 4)).map
             (fun i => sampleNode.bytes (4 + i)),
           { offset := 4 + min (sampleNode.fileSize - 4) 4 },
           sampleNode) ∧
    (min (sampleNode.fileSize - 4) 4 = 0 ↔ 4 = sampleNode.fileSize ∨ 4 = 0) :=
  readSome_contract { offset := 4 } sampleNode 4 sampleNode_inv (by decide)

/-- C10: on `sampleNode` (six bytes) `seek(7, absolute)` returns `7` and leaves
the offset at `7`, after which `readSome` fails its assertion
`_offset <= node->_fileSize` instead of returning zero bytes. -/
theorem readSome_past_eof_asserts :
    (MemoryFile.new.seek sampleNode 7 .absolute).1 = 7 ∧
    (MemoryFile.new.seek sampleNode 7 .absolute).2.1.offset = 7 ∧
    (MemoryFile.new.seek sampleNode 7 .absolute).2.1.readSome
      (MemoryFile.new.seek sampleNode 7 .absolute).2.2 1 = .error .assertion :=
  ⟨rfl, rfl, rfl⟩

/-! ## Theorems: names and entry sets -/

theorem nameLt_irrefl (a : Name) : nameLt a a = false := by
  induction a with
  | nil => rfl
  | cons x xs ih => simp [nameLt, ih]

theorem nameLt_trans : ∀ (a b c : Name), nameLt a b = true → nameLt b c = true →
    nameLt a c = true
  | [], [], _, h, _ => by simp [nameLt] at h
  | [], _ :: _, [], _, h => by simp [nameLt] at h
  | [], _ :: _, _ :: _, _, _ => by simp [nameLt]
  | _ :: _, [], _, h, _ => by simp [nameLt] at h
  | _ :: _, _ :: _, [], _, h => by simp [nameLt] at h
  | x :: xs, y :: ys, z :: zs, h₁, h₂ => by
    simp only [nameLt] at h₁ h₂ ⊢
    by_cases hxy : x < y
    · by_cases hyz : y < z
      · have : x < z := lt_trans hxy hyz
        simp [this]
      · by_cases hzy : z < y
        · simp [hyz, hzy] at h₂
        · have : x < z := lt_of_lt_of_le hxy (not_lt.mp hzy)
          simp [this]
    · by_cases hyx : y < x
      · simp [hxy, hyx] at h₁
      · have hxy' : x = y := le_antisymm (not_lt.mp hyx) (not_lt.mp hxy)
        subst hxy'
        by_cases hyz : x < z
        · simp [hyz]
        · by_cases hzy : z < x
          · simp [hyz, hzy] at h₂
          · simp only [hxy, hyz, hzy, if_false] at h₁ h₂ ⊢
            exact nameLt_trans xs ys zs h₁ h₂

theorem nameLt_asymm (a b : Name) (h : nameLt a b = true) : nameLt b a = false := by
  cases hba : nameLt b a with
  | false => rfl
  | true =>
    have := nameLt_trans a b a h hba
    rw [nameLt_irrefl] at this
    cases this

theorem nameLt_connex : ∀ (a b : Name), nameLt a b = false → nameLt b a = false → a = b
  | [], [], _, _ => rfl
  | [], _ :: _, h, _ => by simp [nameLt] at h
  | _ :: _, [], _, h => by simp [nameLt] at h
  | x :: xs, y :: ys, h₁, h₂ => by
    simp only [nameLt] at h₁ h₂
    by_cases hxy : x < y
    · simp [hxy] at h₁
    · by_cases hyx : y < x
      · simp [hyx] at h₂
      · simp only [hxy, hyx, if_false] at h₁ h₂
        have : x = y := le_antisymm (not_lt.mp hyx) (not_lt.mp hxy)
        rw [this, nameLt_connex xs ys h₁ h₂]

theorem nameLt_ne (a b : Name) (h : nameLt a b = true) : a ≠ b := by
  intro e
  subst e
  rw [nameLt_irrefl] at h
  cases h

theorem EntrySet.Sorted.nodup {entries : EntrySet} (h : EntrySet.Sorted entries) :
    entries.Nodup :=
  List.Pairwise.imp (fun hab heq => nameLt_ne _ _ hab (congrArg Link.name heq)) h

theorem EntrySet.Sorted.names_nodup {entries : EntrySet} (h : EntrySet.Sorted entries) :
    (entries.map Link.name).Nodup := by
  unfold List.Nodup
  rw [List.pairwise_map]
  exact List.Pairwise.imp (fun hab => nameLt_ne _ _ hab) h

theorem EntrySet.find_some {entries : EntrySet} {name : Name} {link : Link}
    (h : EntrySet.find entries name = some link) : link ∈ entries ∧ link.name = name := by
  induction entries with
  | nil => simp [EntrySet.find] at h
  | cons x rest ih =>
    simp only [EntrySet.find, LinkCompare.linkName, LinkCompare.nameLink] at h
    by_cases h1 : nameLt x.name name = true
    · simp only [h1, if_true] at h
      exact ⟨List.mem_cons_of_mem _ (ih h).1, (ih h).2⟩
    · by_cases h2 : nameLt name x.name = true
      · simp [h1, h2] at h
      · simp only [h1, h2, if_false, Bool.false_eq_true, Option.some.injEq] at h
        subst h
        exact ⟨List.mem_cons_self _ _,
          nameLt_connex _ _ (by simpa using h1) (by simpa using h2)⟩

theorem EntrySet.find_of_mem {entries : EntrySet} {link : Link}
    (hs : EntrySet.Sorted entries) (hm : link ∈ entries) :
    EntrySet.find entries link.name = some link := by
  induction entries with
  | nil => cases hm
  | cons x rest ih =>
    have hx := List.pairwise_cons.mp hs
    simp only [EntrySet.find, LinkCompare.linkName, LinkCompare.nameLink]
    rcases List.mem_cons.mp hm with rfl | hr
    · simp [nameLt_irrefl]
    · simp only [hx.1 link hr, if_true]
      exact ih hx.2 hr

theorem EntrySet.find_none_iff {entries : EntrySet} {name : Name}
    (hs : EntrySet.Sorted entries) :
    EntrySet.find entries name = none ↔ ∀ l ∈ entries, l.name ≠ name := by
  constructor
  · intro h l hl hn
    have := EntrySet.find_of_mem hs hl
    rw [hn, h] at this
    cases this
  · intro h
    cases hf : EntrySet.find entries name with
    | none => rfl
    | some l => exact absurd (EntrySet.find_some hf).2 (h l (EntrySet.find_some hf).1)

theorem EntrySet.mem_insert {entries : EntrySet} {link y : Link}
    (h : y ∈ EntrySet.insert entries link) : y ∈ entries ∨ y = link := by
  induction entries with
  | nil =>
    simp only [EntrySet.insert, List.mem_singleton] at h
    exact Or.inr h
  | cons x rest ih =>
    simp only [EntrySet.insert] at h
    split at h
    · rcases List.mem_cons.mp h with rfl | hr
      · exact Or.inl (List.mem_cons_self _ _)
      · rcases ih hr with h1 | h1
        · exact Or.inl (List.mem_cons_of_mem _ h1)
        · exact Or.inr h1
    · split at h
      · rcases List.mem_cons.mp h with rfl | hr
        · exact Or.inr rfl
        · exact Or.inl hr
      · exact Or.inl h

theorem EntrySet.mem_insert_of_mem {entries : EntrySet} {link y : Link}
    (h : y ∈ entries) : y ∈ EntrySet.insert entries link := by
  induction entries with
  | nil => cases h
  | cons x rest ih =>
    simp only [EntrySet.insert]
    split
    · rcases List.mem_cons.mp h with rfl | hr
      · exact List.mem_cons_self _ _
      · exact List.mem_cons_of_mem _ (ih hr)
    · split
      · exact List.mem_cons_of_mem _ h
      · exact h

theorem EntrySet.mem_insert_self {entries : EntrySet} {link : Link}
    (hn : ∀ y ∈ entries, y.name ≠ link.name) : link ∈ EntrySet.insert entries link := by
  induction entries with
  | nil => simp [EntrySet.insert]
  | cons x rest ih =>
    simp only [EntrySet.insert, LinkCompare.linkLink]
    by_cases h1 : nameLt x.name link.name = true
    · simp only [h1, if_true]
      exact List.mem_cons_of_mem _ (ih fun y hy => hn y (List.mem_cons_of_mem _ hy))
    · by_cases h2 : nameLt link.name x.name = true
      · simp [h1, h2]
      · exact absurd (nameLt_connex _ _ (by simpa using h1) (by simpa using h2))
          (hn x (List.mem_cons_self _ _))

theorem EntrySet.insert_sorted {entries : EntrySet} (link : Link)
    (hs : EntrySet.Sorted entries) : EntrySet.Sorted (EntrySet.insert entries link) := by
  induction entries with
  | nil => simp [EntrySet.insert, EntrySet.Sorted]
  | cons x rest ih =>
    have hx := List.pairwise_cons.mp hs
    simp only [EntrySet.insert, LinkCompare.linkLink]
    by_cases h1 : nameLt x.name link.name = true
    · simp only [h1, if_true]
      refine List.pairwise_cons.mpr ⟨?_, ih hx.2⟩
      intro y hy
      rcases EntrySet.mem_insert hy with hr | rfl
      · exact hx.1 y hr
      · exact h1
    · by_cases h2 : nameLt link.name x.name = true
      · simp only [h1, h2, if_true, if_false, Bool.false_eq_true]
        refine List.pairwise_cons.mpr ⟨?_, hs⟩
        intro y hy
        rcases List.mem_cons.mp hy with rfl | hr
        · exact h2
        · exact nameLt_trans _ _ _ h2 (hx.1 y hr)
      · simp only [h1, h2, if_false, Bool.false_eq_true]
        exact hs

theorem EntrySet.erase_ok {entries : EntrySet} {it : Link} (h : it ∈ entries) :
    EntrySet.erase entries it = .ok (List.erase entries it) := by
  simp [EntrySet.erase, h]

theorem EntrySet.erase_sorted {entries : EntrySet} (it : Link)
    (hs : EntrySet.Sorted entries) : EntrySet.Sorted (List.erase entries it) :=
  List.Pairwise.sublist (List.erase_sublist it entries) hs

theorem EntrySet.mem_erase {entries : EntrySet} {it y : Link}
    (hs : EntrySet.Sorted entries) : y ∈ List.erase entries it ↔ y ≠ it ∧ y ∈ entries :=
  hs.nodup.mem_erase_iff

/-! ## Theorems: the object store -/

theorem World.directory_ok_iff (w : World) (id : NodeId) (dir : DirectoryNode) :
    w.directory id = .ok dir ↔ ∃ ino, w.node id = some { inodeNumber := ino, body := .directory dir } := by
  unfold World.directory
  constructor
  · intro h
    split at h
    · rename_i ino d heq
      simp only [Except.ok.injEq] at h
      subst h
      exact ⟨ino, heq⟩
    · cases h
  · rintro ⟨ino, h⟩
    rw [h]

theorem World.directory_setDirectory_same (w : World) (id : NodeId) (dir₀ dir : DirectoryNode)
    (h : w.directory id = .ok dir₀) : (w.setDirectory id dir).directory id = .ok dir := by
  obtain ⟨ino, hn⟩ := (w.directory_ok_iff id dir₀).mp h
  simp [World.setDirectory, hn, World.directory]

theorem World.directory_setDirectory_other (w : World) (id j : NodeId) (dir : DirectoryNode)
    (hj : j ≠ id) : (w.setDirectory id dir).directory j = w.directory j := by
  unfold World.setDirectory
  split
  · simp [World.directory, Function.update_noteq hj]
  · rfl

theorem World.directory_setDirectory (w : World) (id j : NodeId) (dir d : DirectoryNode)
    (h : (w.setDirectory id dir).directory j = .ok d) :
    (j = id ∧ d = dir) ∨ (w.directory j = .ok d) := by
  by_cases hj : j = id
  · subst hj
    unfold World.setDirectory at h
    split at h
    · simp [World.directory] at h
      exact Or.inl ⟨rfl, h.symm⟩
    · exact Or.inr h
  · rw [w.directory_setDirectory_other id j dir hj] at h
    exact Or.inr h

theorem World.Inv.setDirectory {w : World} (hw : w.Inv) (id : NodeId) (dir : DirectoryNode)
    (hd : dir.WF id) : (w.setDirectory id dir).Inv := by
  refine ⟨?_, ?_, ?_⟩
  · intro j d h
    rcases w.directory_setDirectory id j dir d h with ⟨rfl, rfl⟩ | h'
    · exact hd
    · exact hw.dirs j d h'
  · unfold World.setDirectory
    split <;> exact hw.counter
  · intro i hi
    have hi' : i < w.nodeCount := by
      unfold World.setDirectory at hi
      split at hi <;> exact hi
    obtain ⟨n, hn, hino⟩ := hw.inodes i hi'
    unfold World.setDirectory
    split
    · rename_i n' hn'
      by_cases hj : i = id
      · subst hj
        rw [hn] at hn'
        cases hn'
        exact ⟨{ n with body := .directory dir }, by simp, hino⟩
      · exact ⟨n, by simp [Function.update_noteq hj, hn], hino⟩
    · exact ⟨n, hn, hino⟩

theorem World.updateDirectory_ok {w w' : World} {id : NodeId} {f : DirectoryNode → DirectoryNode}
    (h : w.updateDirectory id f = .ok w') :
    ∃ dir, w.directory id = .ok dir ∧ w' = w.setDirectory id (f dir) := by
  unfold World.updateDirectory at h
  split at h
  · cases h
  · rename_i dir hd
    simp only [Except.ok.injEq] at h
    exact ⟨dir, hd, h.symm⟩

theorem World.Inv.updateDirectory {w w' : World} (hw : w.Inv) {id : NodeId}
    {f : DirectoryNode → DirectoryNode} (h : w.updateDirectory id f = .ok w')
    (hf : ∀ dir, dir.WF id → (f dir).WF id) : w'.Inv := by
  obtain ⟨dir, hd, rfl⟩ := World.updateDirectory_ok h
  exact hw.setDirectory id (f dir) (hf dir (hw.dirs id dir hd))

theorem World.construct_ok {w w' : World} {body : NodeBody} {id : NodeId}
    (h : w.construct body = .ok (id, w')) :
    w.superblock.inodeCounter < 2 ^ 63 - 1 ∧ id = w.nodeCount ∧
    w' = { w with superblock := { inodeCounter := w.superblock.inodeCounter + 1 },
                  nodeCount := w.nodeCount + 1,
                  node := Function.update w.node w.nodeCount
                    (some { inodeNumber := w.superblock.inodeCounter, body := body }) } := by
  unfold World.construct at h
  split at h
  · cases h
  · rename_i ino sb heq
    unfold Superblock.allocateInode at heq
    split at heq
    · cases heq
    · rename_i hc
      simp only [Except.ok.injEq, Prod.mk.injEq] at heq h
      obtain ⟨rfl, rfl⟩ := heq
      exact ⟨by omega, h.1.symm, h.2.symm⟩

theorem World.Inv.construct {w w' : World} (hw : w.Inv) {body : NodeBody} {id : NodeId}
    (h : w.construct body = .ok (id, w'))
    (hb : ∀ dir, body = .directory dir → dir.WF id) : w'.Inv := by
  obtain ⟨_, hid, rfl⟩ := World.construct_ok h
  subst hid
  refine ⟨?_, ?_, ?_⟩
  · intro j d hj
    by_cases hjn : j = w.nodeCount
    · subst hjn
      obtain ⟨ino, hn⟩ := (World.directory_ok_iff _ _ _).mp hj
      simp only [Function.update_same, Option.some.injEq, Node.mk.injEq] at hn
      exact hb d hn.2
    · apply hw.dirs j d
      obtain ⟨ino, hn⟩ := (World.directory_ok_iff _ _ _).mp hj
      simp only [Function.update_noteq hjn] at hn
      exact (World.directory_ok_iff _ _ _).mpr ⟨ino, hn⟩
  · simp only [hw.counter]
    push_cast
    ring
  · intro i hi
    simp only at hi
    by_cases hin : i = w.nodeCount
    · subst hin
      exact ⟨{ inodeNumber := w.superblock.inodeCounter, body := body }, by simp,
        by simp [hw.counter]⟩
    · obtain ⟨n, hn, hino⟩ := hw.inodes i (by omega)
      exact ⟨n, by simp [Function.update_noteq hin, hn], hino⟩

theorem World.makeLink_ok {w w' : World} {owner : Option NodeId} {name : Name} {target : NodeId}
    {link : Link} (h : w.makeLink owner name target = .ok (link, w')) :
    (∃ o, owner = some o) ∧ name ≠ [] ∧
    link = { addr := w.linkCount, owner := owner, name := name, target := target } ∧
    w' = { w with linkCount := w.linkCount + 1 } := by
  unfold World.makeLink Link.new at h
  cases owner with
  | none => simp at h
  | some o =>
    cases name with
    | nil => simp at h
    | cons c cs =>
      simp only [Option.isNone_some, Bool.false_eq_true, if_false, List.isEmpty_cons,
        Except.ok.injEq, Prod.mk.injEq] at h
      exact ⟨⟨o, rfl⟩, by simp, h.1.symm, h.2.symm⟩

theorem World.Inv.linkCount {w : World} (hw : w.Inv) (k : Nat) :
    ({ w with linkCount := k } : World).Inv :=
  ⟨hw.dirs, hw.counter, hw.inodes⟩

theorem World.Inv.makeLink {w w' : World} (hw : w.Inv) {owner : Option NodeId} {name : Name}
    {target : NodeId} {link : Link} (h : w.makeLink owner name target = .ok (link, w')) :
    w'.Inv := by
  obtain ⟨_, _, _, rfl⟩ := World.makeLink_ok h
  exact hw.linkCount _

theorem World.empty_inv : World.empty.Inv := by
  refine ⟨?_, by simp [World.empty], ?_⟩
  · intro id dir h
    simp [World.empty, World.directory] at h
  · intro i hi
    simp [World.empty] at hi

theorem DirectoryNode.WF.insert {self : NodeId} {dir : DirectoryNode} (hd : dir.WF self)
    {link : Link} (ho : link.owner = some self) (hn : link.name ≠ [])
    (treeLink : Option Link) (notified : List Notification) :
    DirectoryNode.WF self
      { treeLink := treeLink, entries := dir.entries.insert link, notified := notified } := by
  refine ⟨EntrySet.insert_sorted link hd.sorted, ?_⟩
  intro l hl
  rcases EntrySet.mem_insert hl with h | rfl
  · exact hd.owned l h
  · exact ⟨ho, hn⟩

theorem DirectoryNode.WF.erase {self : NodeId} {dir : DirectoryNode} (hd : dir.WF self)
    (it : Link) (treeLink : Option Link) (notified : List Notification) :
    DirectoryNode.WF self
      { treeLink := treeLink, entries := List.erase dir.entries it, notified := notified } :=
  ⟨EntrySet.erase_sorted it hd.sorted, fun l hl => hd.owned l (List.mem_of_mem_erase hl)⟩

theorem DirectoryNode.WF.new (self : NodeId) (treeLink : Option Link) :
    DirectoryNode.WF self { treeLink := treeLink, entries := [], notified := [] } :=
  ⟨List.Pairwise.nil, fun _ h => by cases h⟩

theorem EntrySet.erase_eq {entries entries' : EntrySet} {it : Link}
    (h : EntrySet.erase entries it = .ok entries') :
    it ∈ entries ∧ entries' = List.erase entries it := by
  unfold EntrySet.erase at h
  split at h
  · rename_i hm
    simp only [Except.ok.injEq] at h
    exact ⟨hm, h.symm⟩
  · cases h

theorem DirectoryNode.insertLink_inv {w w' : World} (hw : w.Inv) {self : NodeId} {name : Name}
    {node : NodeId} {link : Link}
    (h : DirectoryNode.insertLink w self name node = .ok (link, w')) : w'.Inv := by
  unfold DirectoryNode.insertLink at h
  split at h
  · cases h
  · rename_i l w₁ hm
    split at h
    · cases h
    · rename_i w₂ hu
      simp only [Except.ok.injEq, Prod.mk.injEq] at h
      obtain ⟨rfl, rfl⟩ := h
      obtain ⟨_, hn, hl, _⟩ := World.makeLink_ok hm
      refine (hw.makeLink hm).updateDirectory hu ?_
      intro dir hd
      exact hd.insert (by rw [hl]) (by rw [hl]; exact hn) _ _

theorem DirectoryNode.createRootDirectory_inv {w w' : World} (hw : w.Inv) {link : Link}
    (h : DirectoryNode.createRootDirectory w = .ok (link, w')) : w'.Inv := by
  unfold DirectoryNode.createRootDirectory at h
  split at h
  · cases h
  · rename_i node w₁ hc
    split at h
    · cases h
    · rename_i w₂ hu
      simp only [Except.ok.injEq, Prod.mk.injEq] at h
      obtain ⟨_, rfl⟩ := h
      have h1 : w₁.Inv := hw.construct hc (by
        intro dir hb
        cases hb
        exact DirectoryNode.WF.new _ _)
      exact (h1.linkCount _).updateDirectory hu fun dir hd => ⟨hd.sorted, hd.owned⟩

theorem DirectoryNode.link_inv {w w' : World} (hw : w.Inv) {self : NodeId} {name : Name}
    {target : NodeId} {link : Link}
    (h : DirectoryNode.link w self name target = .ok (link, w')) : w'.Inv := by
  unfold DirectoryNode.link at h
  split at h
  · cases h
  · exact DirectoryNode.insertLink_inv hw h

theorem DirectoryNode.mkdir_inv {w w' : World} (hw : w.Inv) {self : NodeId} {name : Name}
    {r : Sum Error Link} (h : DirectoryNode.mkdir w self name = .ok (r, w')) : w'.Inv := by
  unfold DirectoryNode.mkdir at h
  split at h
  · cases h
  · split at h
    · cases h
    · rename_i node w₁ hc
      split at h
      · cases h
      · rename_i link w₂ hm
        split at h
        · cases h
        · rename_i w₃ hu
          split at h
          · cases h
          · rename_i w₄ hu'
            simp only [Except.ok.injEq, Prod.mk.injEq] at h
            obtain ⟨_, rfl⟩ := h
            obtain ⟨_, hn, hl, _⟩ := World.makeLink_ok hm
            have h1 : w₁.Inv := hw.construct hc (by
              intro dir hb
              cases hb
              exact DirectoryNode.WF.new _ _)
            have h3 : w₃.Inv :=
              (h1.makeLink hm).updateDirectory hu fun dir hd => ⟨hd.sorted, hd.owned⟩
            refine h3.updateDirectory hu' ?_
            intro dir hd
            exact hd.insert (by rw [hl]) (by rw [hl]; exact hn) _ _

theorem DirectoryNode.symlink_inv {w w' : World} (hw : w.Inv) {self : NodeId} {name path : Name}
    {link : Link} (h : DirectoryNode.symlink w self name path = .ok (link, w')) : w'.Inv := by
  unfold DirectoryNode.symlink at h
  split at h
  · cases h
  · split at h
    · cases h
    · rename_i node w₁ hc
      exact DirectoryNode.insertLink_inv
        (hw.construct hc (by intro dir hb; cases hb)) h

theorem DirectoryNode.mkdev_inv {w w' : World} (hw : w.Inv) {self : NodeId} {name : Name}
    {type : VfsType} {id : DeviceId} {link : Link}
    (h : DirectoryNode.mkdev w self name type id = .ok (link, w')) : w'.Inv := by
  unfold DirectoryNode.mkdev at h
  split at h
  · cases h
  · split at h
    · cases h
    · rename_i node w₁ hc
      split at h
      · exact DirectoryNode.insertLink_inv
          (hw.construct hc (by intro dir hb; cases hb)) h
      · cases h

theorem DirectoryNode.mkfifo_inv {w w' : World} (hw : w.Inv) {self : NodeId} {name : Name}
    {mode : Nat} {link : Link}
    (h : DirectoryNode.mkfifo w self name mode = .ok (link, w')) : w'.Inv := by
  unfold DirectoryNode.mkfifo at h
  split at h
  · cases h
  · split at h
    · cases h
    · rename_i node w₁ hc
      exact DirectoryNode.insertLink_inv
        (hw.construct hc (by intro dir hb; cases hb)) h

theorem DirectoryNode.unlink_inv {w w' : World} (hw : w.Inv) {self : NodeId} {name : Name}
    (h : DirectoryNode.unlink w self name = .ok w') : w'.Inv := by
  unfold DirectoryNode.unlink at h
  split at h
  · cases h
  · rename_i dir hd
    split at h
    · cases h
    · rename_i it hf
      split at h
      · cases h
      · rename_i entries he
        simp only [Except.ok.injEq] at h
        subst h
        obtain ⟨_, rfl⟩ := EntrySet.erase_eq he
        exact hw.setDirectory self _ ((hw.dirs self dir hd).erase it _ _)

theorem Superblock.eraseExisting_inv {w w' : World} (hw : w.Inv) {dest_dir : NodeId}
    {dest_name : Name} (h : Superblock.eraseExisting w dest_dir dest_name = .ok w') :
    w'.Inv := by
  unfold Superblock.eraseExisting at h
  split at h
  · cases h
  · rename_i ddir hdd
    split at h
    · simp only [Except.ok.injEq] at h
      subst h
      exact hw
    · rename_i dest_it hf
      split at h
      · cases h
      · rename_i entries hee
        simp only [Except.ok.injEq] at h
        subst h
        obtain ⟨_, rfl⟩ := EntrySet.erase_eq hee
        exact hw.setDirectory dest_dir _ ((hw.dirs dest_dir ddir hdd).erase dest_it _ _)

theorem Superblock.rename_inv {w w' : World} (hw : w.Inv) {src_link : Link} {dest_dir : NodeId}
    {dest_name : Name} {link : Link}
    (h : Superblock.rename w src_link dest_dir dest_name = .ok (link, w')) : w'.Inv := by
  unfold Superblock.rename at h
  split at h
  · cases h
  · split at h
    · cases h
    · rename_i src_dir ho
      split at h
      · cases h
      · rename_i sdir hsd
        split at h
        · split at h
          · cases h
          · rename_i w₁ he
            split at h
            · cases h
            · rename_i new_link w₂ hm
              split at h
              · cases h
              · rename_i sdir₂ hsd₂
                split at h
                · cases h
                · rename_i entries hee
                  split at h
                  · cases h
                  · rename_i w₃ hu
                    simp only [Except.ok.injEq, Prod.mk.injEq] at h
                    obtain ⟨_, rfl⟩ := h
                    obtain ⟨_, hne, hl, _⟩ := World.makeLink_ok hm
                    obtain ⟨_, rfl⟩ := EntrySet.erase_eq hee
                    have h2 : w₂.Inv := (Superblock.eraseExisting_inv hw he).makeLink hm
                    have h3 := h2.setDirectory src_dir
                      { sdir₂ with entries := List.erase sdir₂.entries src_link }
                      ((h2.dirs src_dir sdir₂ hsd₂).erase src_link _ _)
                    refine h3.updateDirectory hu ?_
                    intro dir hd
                    exact hd.insert (by rw [hl]) (by rw [hl]; exact hne) _ _
        · cases h

theorem TreeOp.run_inv {w w' : World} (hw : w.Inv) (op : TreeOp) (h : op.run w = .ok w') :
    w'.Inv := by
  cases op with
  | createRoot =>
    simp only [TreeOp.run, tmp_fs.createRoot, Except.map] at h
    split at h
    · cases h
    · rename_i r hr
      simp only [Except.ok.injEq] at h
      subst h
      exact DirectoryNode.createRootDirectory_inv hw hr
  | createRegular fill =>
    simp only [TreeOp.run, Superblock.createRegular, Except.map] at h
    split at h
    · cases h
    · rename_i r hr
      simp only [Except.ok.injEq] at h
      subst h
      exact hw.construct hr (by intro dir hb; cases hb)
  | createSocket =>
    simp only [TreeOp.run, Superblock.createSocket, Except.map] at h
    split at h
    · cases h
    · rename_i r hr
      simp only [Except.ok.injEq] at h
      subst h
      exact hw.construct hr (by intro dir hb; cases hb)
  | createMemoryNode path =>
    simp only [TreeOp.run, tmp_fs.createMemoryNode, Except.map] at h
    split at h
    · cases h
    · rename_i r hr
      simp only [Except.ok.injEq] at h
      subst h
      exact hw.construct hr (by intro dir hb; cases hb)
  | link dir name target =>
    simp only [TreeOp.run, Except.map] at h
    split at h
    · cases h
    · rename_i r hr
      simp only [Except.ok.injEq] at h
      subst h
      exact DirectoryNode.link_inv hw hr
  | mkdir dir name =>
    simp only [TreeOp.run, Except.map] at h
    split at h
    · cases h
    · rename_i r hr
      simp only [Except.ok.injEq] at h
      subst h
      exact DirectoryNode.mkdir_inv hw hr
  | symlink dir name path =>
    simp only [TreeOp.run, Except.map] at h
    split at h
    · cases h
    · rename_i r hr
      simp only [Except.ok.injEq] at h
      subst h
      exact DirectoryNode.symlink_inv hw hr
  | mkdev dir name type id =>
    simp only [TreeOp.run, Except.map] at h
    split at h
    · cases h
    · rename_i r hr
      simp only [Except.ok.injEq] at h
      subst h
      exact DirectoryNode.mkdev_inv hw hr
  | mkfifo dir name mode =>
    simp only [TreeOp.run, Except.map] at h
    split at h
    · cases h
    · rename_i r hr
      simp only [Except.ok.injEq] at h
      subst h
      exact DirectoryNode.mkfifo_inv hw hr
  | unlink dir name =>
    exact DirectoryNode.unlink_inv hw h
  | rename src_link dest_dir dest_name =>
    simp only [TreeOp.run, Except.map] at h
    split at h
    · cases h
    · rename_i r hr
      simp only [Except.ok.injEq] at h
      subst h
      exact Superblock.rename_inv hw hr

theorem runTreeOps_inv (ops : List TreeOp) {w w' : World} (hw : w.Inv)
    (h : runTreeOps ops w = .ok w') : w'.Inv := by
  induction ops generalizing w with
  | nil =>
    simp only [runTreeOps, Except.ok.injEq] at h
    subst h
    exact hw
  | cons op ops ih =>
    simp only [runTreeOps] at h
    split at h
    · rename_i w₁ h₁
      exact ih (TreeOp.run_inv hw op h₁) h
    · cases h

/-! ## Theorems: rename -/

/-- What the erase of an existing destination leaves behind: the destination
directory without the entry named `dest_name`, everything else untouched. -/
theorem Superblock.eraseExisting_spec {w : World} (hw : w.Inv) {dest_dir : NodeId}
    {ddir : DirectoryNode} (dest_name : Name) (hdd : w.directory dest_dir = .ok ddir) :
    ∃ w₁ ddir₁, Superblock.eraseExisting w dest_dir dest_name = .ok w₁ ∧
      w₁.linkCount = w.linkCount ∧
      (∀ j, j ≠ dest_dir → w₁.directory j = w.directory j) ∧
      w₁.directory dest_dir = .ok ddir₁ ∧
      ddir₁.treeLink = ddir.treeLink ∧ ddir₁.notified = ddir.notified ∧
      (∀ l, l ∈ ddir₁.entries ↔ l ∈ ddir.entries ∧ l.name ≠ dest_name) := by
  have hs := (hw.dirs dest_dir ddir hdd).sorted
  cases hf : ddir.entries.find dest_name with
  | none =>
    have e : Superblock.eraseExisting w dest_dir dest_name = .ok w := by
      unfold Superblock.eraseExisting
      simp only [hdd, hf]
    refine ⟨w, ddir, e, rfl, fun _ _ => rfl, hdd, rfl, rfl, ?_⟩
    intro l
    exact ⟨fun h => ⟨h, (EntrySet.find_none_iff hs).mp hf l h⟩, fun h => h.1⟩
  | some d₀ =>
    obtain ⟨hm, hn⟩ := EntrySet.find_some hf
    have e : Superblock.eraseExisting w dest_dir dest_name =
        .ok (w.setDirectory dest_dir { ddir with entries := List.erase ddir.entries d₀ }) := by
      unfold Superblock.eraseExisting
      simp only [hdd, hf, EntrySet.erase_ok hm]
    refine ⟨_, { ddir with entries := List.erase ddir.entries d₀ }, e, ?_, ?_, ?_, rfl, rfl, ?_⟩
    · unfold World.setDirectory
      split <;> rfl
    · intro j hj
      exact w.directory_setDirectory_other dest_dir j _ hj
    · exact w.directory_setDirectory_same dest_dir ddir _ hdd
    · intro l
      simp only
      rw [EntrySet.mem_erase hs]
      constructor
      · rintro ⟨hne, hl⟩
        refine ⟨hl, fun hln => hne ?_⟩
        have h1 := EntrySet.find_of_mem hs hl
        rw [hln, hf] at h1
        exact (Option.some.inj h1).symm
      · rintro ⟨hl, hln⟩
        exact ⟨fun e => hln (e ▸ hn), hl⟩

theorem World.linkCount_setDirectory (w : World) (id : NodeId) (dir : DirectoryNode) :
    (w.setDirectory id dir).linkCount = w.linkCount := by
  unfold World.setDirectory
  split <;> rfl

theorem World.directory_setDirectory_linkCount (w : World) (k : Nat) (id j : NodeId)
    (dir : DirectoryNode) :
    (({ w with linkCount := k } : World).setDirectory id dir).directory j =
      (w.setDirectory id dir).directory j := by
  unfold World.setDirectory
  simp only
  split <;> rfl

/-- The full effect of `rename` when the source link is in its owner directory
and is not itself the entry `dest_name` of `dest_dir`. -/
theorem Superblock.rename_spec {w : World} (hw : w.Inv) {src_link : Link} {src_dir dest_dir : NodeId}
    {sdir ddir : DirectoryNode} {dest_name : Name}
    (ho : src_link.owner = some src_dir) (hsd : w.directory src_dir = .ok sdir)
    (hsrc : sdir.entries.find src_link.name = some src_link)
    (hdd : w.directory dest_dir = .ok ddir) (hn : dest_name ≠ [])
    (hne : ¬ (src_dir = dest_dir ∧ src_link.name = dest_name)) :
    ∃ w' ddir',
      Superblock.rename w src_link dest_dir dest_name =
        .ok ({ addr := w.linkCount, owner := some dest_dir, name := dest_name,
               target := src_link.target }, w') ∧
      w'.Inv ∧
      w'.directory dest_dir = .ok ddir' ∧
      (∀ l, l ∈ ddir'.entries ↔
        l = { addr := w.linkCount, owner := some dest_dir, name := dest_name,
              target := src_link.target } ∨
        (l ∈ ddir.entries ∧ l.name ≠ dest_name ∧ l ≠ src_link)) := by
  obtain ⟨w₁, ddir₁, he, hlc, hother, hdd₁, _, _, hmem₁⟩ :=
    Superblock.eraseExisting_spec hw dest_name hdd
  have hw₁ : w₁.Inv := Superblock.eraseExisting_inv hw he
  have hsm : src_link ∈ sdir.entries := (EntrySet.find_some hsrc).1
  -- the source directory after the erase of the destination
  obtain ⟨sdir₁, hsd₁, hsm₁, hrel⟩ : ∃ sdir₁, w₁.directory src_dir = .ok sdir₁ ∧
      src_link ∈ sdir₁.entries ∧ (src_dir = dest_dir → sdir₁ = ddir₁ ∧ sdir = ddir) := by
    by_cases hsd_eq : src_dir = dest_dir
    · subst hsd_eq
      have hsame : sdir = ddir := by
        rw [hsd] at hdd
        exact Except.ok.inj hdd
      refine ⟨ddir₁, hdd₁, ?_, fun _ => ⟨rfl, hsame⟩⟩
      rw [hmem₁]
      exact ⟨hsame ▸ hsm, fun e => hne ⟨rfl, e⟩⟩
    · refine ⟨sdir, ?_, hsm, fun e => absurd e hsd_eq⟩
      rw [hother src_dir hsd_eq]
      exact hsd
  have hname : dest_name.isEmpty = false := by
    cases dest_name with
    | nil => exact absurd rfl hn
    | cons _ _ => rfl
  -- the destination directory after the erase of the source
  have hdd₂ : ∃ ddir₂, (w₁.setDirectory src_dir
        { sdir₁ with entries := List.erase sdir₁.entries src_link }).directory dest_dir
        = .ok ddir₂ ∧
      (∀ l, l ∈ ddir₂.entries ↔ l ∈ ddir.entries ∧ l.name ≠ dest_name ∧ l ≠ src_link) := by
    by_cases hsd_eq : src_dir = dest_dir
    · subst hsd_eq
      obtain ⟨rfl, rfl⟩ := hrel rfl
      refine ⟨_, w₁.directory_setDirectory_same src_dir sdir₁ _ hsd₁, ?_⟩
      intro l
      simp only
      rw [EntrySet.mem_erase (hw₁.dirs src_dir sdir₁ hsd₁).sorted, hmem₁]
      tauto
    · refine ⟨ddir₁, ?_, ?_⟩
      · rw [w₁.directory_setDirectory_other src_dir dest_dir _ (Ne.symm hsd_eq)]
        exact hdd₁
      · intro l
        rw [hmem₁]
        constructor
        · rintro ⟨h1, h2⟩
          refine ⟨h1, h2, ?_⟩
          rintro rfl
          have := ((hw.dirs dest_dir ddir hdd).owned l h1).1
          rw [ho] at this
          exact hsd_eq (Option.some.inj this)
        · rintro ⟨h1, h2, _⟩
          exact ⟨h1, h2⟩
  obtain ⟨ddir₂, hdd₂, hmem₂⟩ := hdd₂
  have hw₂ : (w₁.setDirectory src_dir
      { sdir₁ with entries := List.erase sdir₁.entries src_link }).Inv :=
    hw₁.setDirectory src_dir _ ((hw₁.dirs src_dir sdir₁ hsd₁).erase src_link _ _)
  refine ⟨(({ w₁ with linkCount := w.linkCount + 1 } : World).setDirectory src_dir
      { sdir₁ with entries := List.erase sdir₁.entries src_link }).setDirectory dest_dir
      { ddir₂ with entries := (EntrySet.insert ddir₂.entries
        ⟨w.linkCount, some dest_dir, dest_name, src_link.target⟩) },
    { ddir₂ with entries := (EntrySet.insert ddir₂.entries
      ⟨w.linkCount, some dest_dir, dest_name, src_link.target⟩) }, ?_, ?_, ?_, ?_⟩
  · unfold Superblock.rename
    simp only [Link.getName, Link.getOwner, Link.getTarget, ho, Option.isNone_some,
      Bool.false_eq_true, if_false, hsd, hsrc, if_true, he, World.makeLink, Link.new, hname,
      hlc]
    have hsd₁' : ({ w₁ with linkCount := w.linkCount + 1 } : World).directory src_dir
        = .ok sdir₁ := hsd₁
    simp only [hsd₁', EntrySet.erase_ok hsm₁]
    have hdd₂' : (({ w₁ with linkCount := w.linkCount + 1 } : World).setDirectory src_dir
        { sdir₁ with entries := List.erase sdir₁.entries src_link }).directory dest_dir
        = .ok ddir₂ := by
      rw [World.directory_setDirectory_linkCount]
      exact hdd₂
    simp only [World.updateDirectory, hdd₂']
  · have h := (hw₁.linkCount (w.linkCount + 1)).setDirectory src_dir
      { sdir₁ with entries := List.erase sdir₁.entries src_link }
      ((hw₁.dirs src_dir sdir₁ hsd₁).erase src_link _ _)
    have hdd₂' : (({ w₁ with linkCount := w.linkCount + 1 } : World).setDirectory src_dir
        { sdir₁ with entries := List.erase sdir₁.entries src_link }).directory dest_dir
        = .ok ddir₂ := by
      rw [World.directory_setDirectory_linkCount]
      exact hdd₂
    exact h.setDirectory dest_dir _
      ((h.dirs dest_dir ddir₂ hdd₂').insert rfl hn _ _)
  · have hdd₂' : (({ w₁ with linkCount := w.linkCount + 1 } : World).setDirectory src_dir
        { sdir₁ with entries := List.erase sdir₁.entries src_link }).directory dest_dir
        = .ok ddir₂ := by
      rw [World.directory_setDirectory_linkCount]
      exact hdd₂
    exact World.directory_setDirectory_same _ dest_dir ddir₂ _ hdd₂'
  · intro l
    simp only
    constructor
    · intro hl
      rcases EntrySet.mem_insert hl with h | h
      · exact Or.inr ((hmem₂ l).mp h)
      · exact Or.inl h
    · rintro (rfl | h)
      · apply EntrySet.mem_insert_self
        intro y hy
        exact ((hmem₂ y).mp hy).2.1
      · exact EntrySet.mem_insert_of_mem ((hmem₂ l).mpr h)

/-! ## Theorems: the sample trees -/

theorem sampleTree_run : runTreeOps sampleTreeOps World.empty = .ok sampleTree := rfl

theorem sampleTree_root : sampleTree.directory 0 = .ok sampleRoot := rfl

theorem sampleTree_inv : sampleTree.Inv := runTreeOps_inv _ World.empty_inv sampleTree_run

theorem sampleHardLinks_run :
    runTreeOps sampleHardLinksOps World.empty = .ok sampleHardLinks := rfl

theorem sampleMutated_run : runTreeOps sampleMutationOps World.empty = .ok sampleMutated := rfl

theorem sampleMutated_root : sampleMutated.directory 0 = .ok sampleMutatedRoot := rfl

/-! ## Theorems: rename replaces the destination -/

theorem countP_eq_one_of_unique {α : Type} [DecidableEq α] (l : List α) (p : α → Bool)
    (a : α) (hnd : l.Nodup) (ha : a ∈ l) (hpa : p a = true)
    (hu : ∀ x ∈ l, p x = true → x = a) : l.countP p = 1 := by
  have h1 : l.countP p = l.countP (fun x => x == a) := by
    apply List.countP_congr
    intro x hx
    constructor
    · intro hp
      simp [hu x hx hp]
    · intro he
      have : x = a := by simpa using he
      rw [this]
      exact hpa
  rw [h1]
  exact List.count_eq_one_of_mem hnd ha

/-- C3, as amended: when `D` holds a link named `n` (`l₀`, with target `T₀`)
and `src_link`, another link, is in its owner directory, `rename(src_link, D,
n)` returns, and afterwards `D` holds exactly one link named `n`, the link
returned; its target is the target of `src_link`; and when `T₀` is another
node than that target, no link named `n` in `D` targets `T₀`. -/
theorem rename_replaces_destination (w : World) (hw : w.Inv) (src_link l₀ : Link)
    (S D : NodeId) (sdir ddir : DirectoryNode) (n : Name)
    (hdd : w.directory D = .ok ddir) (h₀ : ddir.entries.find n = some l₀)
    (ho : src_link.owner = some S) (hsd : w.directory S = .ok sdir)
    (hsrc : sdir.entries.find src_link.name = some src_link)
    (hne : src_link ≠ l₀) :
    ∃ new w' ddir', Superblock.rename w src_link D n = .ok (new, w') ∧
      w'.directory D = .ok ddir' ∧
      new ∈ ddir'.entries ∧ new.name = n ∧
      (∀ l ∈ ddir'.entries, l.name = n → l = new) ∧
      ddir'.entries.countP (fun l => decide (l.name = n)) = 1 ∧
      new.target = src_link.target ∧
      (l₀.target ≠ src_link.target → ∀ l ∈ ddir'.entries, l.name = n → l.target ≠ l₀.target) := by
  obtain ⟨hl₀, hl₀n⟩ := EntrySet.find_some h₀
  have hn : n ≠ [] := hl₀n ▸ ((hw.dirs D ddir hdd).owned l₀ hl₀).2
  have hns : ¬ (S = D ∧ src_link.name = n) := by
    rintro ⟨rfl, hname⟩
    rw [hsd] at hdd
    cases hdd
    rw [hname, h₀] at hsrc
    exact hne (Option.some.inj hsrc).symm
  obtain ⟨w', ddir', hr, hw', hdd', hmem⟩ := Superblock.rename_spec hw ho hsd hsrc hdd hn hns
  have hnew : (⟨w.linkCount, some D, n, src_link.target⟩ : Link) ∈ ddir'.entries :=
    (hmem _).mpr (Or.inl rfl)
  have huniq : ∀ l ∈ ddir'.entries, l.name = n →
      l = (⟨w.linkCount, some D, n, src_link.target⟩ : Link) := by
    intro l hl hln
    rcases (hmem l).mp hl with h | h
    · exact h
    · exact absurd hln h.2.1
  refine ⟨_, w', ddir', hr, hdd', hnew, rfl, huniq, ?_, rfl, ?_⟩
  · exact countP_eq_one_of_unique _ _ _ (hw'.dirs D ddir' hdd').sorted.nodup hnew
      (by simp) (fun x hx hp => huniq x hx (by simpa using hp))
  · intro ht l hl hln
    rw [huniq l hl hln]
    exact fun e => ht e.symm

/-- C3 at a concrete tree: in `sampleTree`, `rename(a, root, "b")`. -/
theorem rename_replaces_destination_sample :
    ∃ new w' ddir', Superblock.rename sampleTree linkA 0 [98] = .ok (new, w') ∧
      w'.directory 0 = .ok ddir' ∧
      new ∈ ddir'.entries ∧ new.name = [98] ∧
      (∀ l ∈ ddir'.entries, l.name = [98] → l = new) ∧
      ddir'.entries.countP (fun l => decide (l.name = [98])) = 1 ∧
      new.target = linkA.target ∧
      (linkB.target ≠ linkA.target →
        ∀ l ∈ ddir'.entries, l.name = [98] → l.target ≠ linkB.target) :=
  rename_replaces_destination sampleTree sampleTree_inv linkA linkB 0 0 sampleRoot sampleRoot
    [98] sampleTree_root (by decide) rfl sampleTree_root (by decide) (by decide)

/-- C3 as stated fails: in `sampleHardLinks` the root holds `a` and `b`, both
targeting node 1; `b` is a link named `b` with target `T₀ = 1` and `a` is in
its owner directory.  After `rename(a, root, "b")` the root holds one link
named `b`, and it targets `T₀`. -/
theorem rename_onto_hard_link_keeps_target :
    sampleHardLinks.entries 0 = .ok [hardLinkA, hardLinkB] ∧
    EntrySet.find [hardLinkA, hardLinkB] [98] = some hardLinkB ∧
    hardLinkB.target = 1 ∧
    hardLinkA.owner = some 0 ∧
    EntrySet.find [hardLinkA, hardLinkB] hardLinkA.name = some hardLinkA ∧
    (match Superblock.rename sampleHardLinks hardLinkA 0 [98] with
      | .ok (_, w') => w'.entries 0
      | .error e => .error e) =
      .ok [{ addr := 3, owner := some 0, name := [98], target := 1 }] ∧
    ¬ (∀ l ∈ [({ addr := 3, owner := some 0, name := [98], target := 1 } : Link)],
        l.name = [98] → l.target ≠ hardLinkB.target) := by
  refine ⟨rfl, by decide, rfl, rfl, by decide, rfl, ?_⟩
  intro h
  exact h _ (List.mem_singleton.mpr rfl) rfl rfl

/-! ## Theorems: rename returns the new link -/

/-- C4, the part that holds: when the source link is in its owner directory
and is not itself the entry `n` of `D`, `rename` returns a link with owner
`D`, name `n` and the target of the source link. -/
theorem rename_returns_link (w : World) (hw : w.Inv) (src_link : Link) (S D : NodeId)
    (sdir ddir : DirectoryNode) (n : Name)
    (ho : src_link.owner = some S) (hsd : w.directory S = .ok sdir)
    (hsrc : sdir.entries.find src_link.name = some src_link)
    (hdd : w.directory D = .ok ddir) (hn : n ≠ [])
    (hne : ¬ (S = D ∧ src_link.name = n)) :
    ∃ new w', Superblock.rename w src_link D n = .ok (new, w') ∧
      new.owner = some D ∧ new.name = n ∧ new.target = src_link.target := by
  obtain ⟨w', _, hr, _⟩ := Superblock.rename_spec hw ho hsd hsrc hdd hn hne
  exact ⟨_, w', hr, rfl, rfl, rfl⟩

/-- C4: in `sampleTree` the link `a` is in its owner directory, the root;
`rename(a, root, "a")` erases the entry `a` as the existing destination and
then erases through the iterator `it`, which pointed to that entry. -/
theorem rename_onto_itself_is_undefined :
    sampleTree.entries 0 = .ok [linkA, linkB, linkC] ∧
    linkA.owner = some 0 ∧
    EntrySet.find [linkA, linkB, linkC] linkA.name = some linkA ∧
    Superblock.rename sampleTree linkA 0 [97] = .error .invalidIterator := by
  refine ⟨rfl, rfl, by decide, rfl⟩
/-! ## Theorems: entry names are unique -/

/-- C5: after `createRoot` on the empty object store and any sequence of calls
that all return (creations and `link` on an absent name, `unlink` on a present
name, `rename` of a present link), no directory holds two links with the same
name. -/
theorem directory_entry_names_unique (ops : List TreeOp) (w : World)
    (h : runTreeOps (.createRoot :: ops) World.empty = .ok w)
    (id : NodeId) (dir : DirectoryNode) (hd : w.directory id = .ok dir) :
    (dir.entries.map Link.name).Nodup ∧
    ∀ a ∈ dir.entries, ∀ b ∈ dir.entries, a.name = b.name → a = b := by
  have hs := ((runTreeOps_inv _ World.empty_inv h).dirs id dir hd).sorted
  refine ⟨hs.names_nodup, ?_⟩
  intro a ha b hb hab
  have h1 := EntrySet.find_of_mem hs ha
  have h2 := EntrySet.find_of_mem hs hb
  rw [hab, h2] at h1
  exact (Option.some.inj h1).symm

/-- C5 at a concrete run: three creations, then `rename(a, root, "b")` and
`unlink("c")`. -/
theorem directory_entry_names_unique_sample :
    (sampleMutatedRoot.entries.map Link.name).Nodup ∧
    ∀ a ∈ sampleMutatedRoot.entries, ∀ b ∈ sampleMutatedRoot.entries, a.name = b.name → a = b :=
  directory_entry_names_unique
    [.mkdir 0 [97], .mkdir 0 [98], .symlink 0 [99] [47, 116, 109, 112],
      .rename linkA 0 [98], .unlink 0 [99]]
    sampleMutated sampleMutated_run 0 sampleMutatedRoot sampleMutated_root

/-! ## Theorems: directory listing -/

theorem EntrySet.next_eq (before after : List Link) (x : Link)
    (hs : EntrySet.Sorted (before ++ x :: after)) :
    EntrySet.next (before ++ x :: after) x = .ok after.head? := by
  have hp := List.pairwise_append.mp hs
  have hx := List.pairwise_cons.mp hp.2.1
  have h1 : List.find? (fun l => LinkCompare.linkLink x l) before = none := by
    rw [List.find?_eq_none]
    intro l hl
    have := hp.2.2 l hl x (List.mem_cons_self _ _)
    simp [LinkCompare.linkLink, nameLt_asymm _ _ this]
  have h2 : List.find? (fun l => LinkCompare.linkLink x l) (x :: after) = after.head? := by
    rw [List.find?_cons]
    simp only [LinkCompare.linkLink, nameLt_irrefl]
    cases after with
    | nil => rfl
    | cons y rest =>
      rw [List.find?_cons]
      simp [LinkCompare.linkLink, hx.1 y (List.mem_cons_self _ _)]
  unfold EntrySet.next
  rw [if_pos (List.mem_append_right _ (List.mem_cons_self _ _)), List.find?_append, h1, h2]
  rfl

theorem DirectoryFile.readEntriesTimes_none (w : World) (node : NodeId) (dir : DirectoryNode)
    (hd : w.directory node = .ok dir) (j : Nat) :
    DirectoryFile.readEntriesTimes w j { node := node, iter := none } =
      .ok (List.replicate j none, { node := node, iter := none }, w) := by
  induction j with
  | zero => rfl
  | succ j ih =>
    simp only [DirectoryFile.readEntriesTimes, DirectoryFile.readEntries, hd, ih,
      List.replicate_succ]

theorem DirectoryFile.readEntriesTimes_from (w : World) (node : NodeId) (dir : DirectoryNode)
    (hd : w.directory node = .ok dir) (hwf : dir.WF node) (j : Nat) :
    ∀ (before after : List Link), dir.entries = before ++ after →
      DirectoryFile.readEntriesTimes w (after.length + j) { node := node, iter := after.head? } =
        .ok (after.map (fun l => some l.name) ++ List.replicate j none,
             { node := node, iter := none }, w) := by
  intro before after
  induction after generalizing before with
  | nil =>
    intro _
    simpa using DirectoryFile.readEntriesTimes_none w node dir hd j
  | cons x rest ih =>
    intro he
    have hx : x ∈ dir.entries := by
      rw [he]
      exact List.mem_append_right _ (List.mem_cons_self _ _)
    have hname : x.getName = .ok x.name := by
      simp [Link.getName, (hwf.owned x hx).1]
    have hnext : dir.entries.next x = .ok rest.head? := by
      rw [he]
      exact EntrySet.next_eq before rest x (he ▸ hwf.sorted)
    have ih' := ih (before ++ [x]) (by rw [he]; simp)
    have hlen : (x :: rest).length + j = (rest.length + j) + 1 := by
      simp only [List.length_cons]
      omega
    rw [hlen]
    simp only [DirectoryFile.readEntriesTimes, DirectoryFile.readEntries, hd, List.head?_cons,
      hname, hnext, ih', List.map_cons, List.cons_append]

/-- C6: a `DirectoryFile` opened on a directory with `k` entries that stays as
it is returns, over `k + j` calls of `readEntries`, the names of all entries
in the order of the set, then `j` times nothing; the names are in strictly
ascending byte-wise lexicographic order, so each of them comes exactly
once. -/
theorem readEntries_lists_directory (w : World) (link : Link) (dir : DirectoryNode) (j : Nat)
    (hd : w.directory link.target = .ok dir) (hwf : dir.WF link.target) :
    ∃ file file', DirectoryFile.new w link = .ok file ∧
      DirectoryFile.readEntriesTimes w (dir.entries.length + j) file =
        .ok ((dir.entries.map fun l => some l.name) ++ List.replicate j none, file', w) ∧
      (dir.entries.map Link.name).Pairwise (fun a b => nameLt a b = true) ∧
      (dir.entries.map Link.name).Nodup := by
  refine ⟨{ node := link.target, iter := dir.entries.head? }, { node := link.target, iter := none },
    ?_, ?_, ?_, hwf.sorted.names_nodup⟩
  · simp [DirectoryFile.new, Link.getTarget, hd, EntrySet.begin]
  · exact DirectoryFile.readEntriesTimes_from w link.target dir hd hwf j [] dir.entries rfl
  · rw [List.pairwise_map]
    exact hwf.sorted

/-- C6 at a concrete directory: the root of `sampleTree` lists `a`, `b`, `c`
and then nothing, twice. -/
theorem readEntries_lists_directory_sample :
    ∃ file file', DirectoryFile.new sampleTree (Link.root 0 0) = .ok file ∧
      DirectoryFile.readEntriesTimes sampleTree (sampleRoot.entries.length + 2) file =
        .ok ((sampleRoot.entries.map fun l => some l.name) ++ List.replicate 2 none, file',
          sampleTree) ∧
      (sampleRoot.entries.map Link.name).Pairwise (fun a b => nameLt a b = true) ∧
      (sampleRoot.entries.map Link.name).Nodup :=
  readEntries_lists_directory sampleTree (Link.root 0 0) sampleRoot 2 sampleTree_root
    (sampleTree_inv.dirs 0 sampleRoot sampleTree_root)

/-! ## Theorems: inode numbers -/

/-- C7, one creation: the constructor of a node draws one inode number, the
current value of the counter, and leaves the counter one higher. -/
theorem World.construct_allocates_once (w w' : World) (body : NodeBody) (id : NodeId)
    (h : w.construct body = .ok (id, w')) :
    id = w.nodeCount ∧ w'.nodeCount = w.nodeCount + 1 ∧
    w'.node id = some { inodeNumber := w.superblock.inodeCounter, body := body } ∧
    w'.superblock.inodeCounter = w.superblock.inodeCounter + 1 := by
  obtain ⟨_, rfl, rfl⟩ := World.construct_ok h
  exact ⟨rfl, rfl, by simp, rfl⟩

theorem toU64_cast (x : Int) : ((toU64 x : Nat) : Int) = x % 2 ^ 64 := by
  unfold toU64 wordSize
  have h : (0 : Int) ≤ x % ((2 ^ 64 : Nat) : Int) := Int.emod_nonneg _ (by norm_num)
  rw [Int.toNat_of_nonneg h]
  norm_num

theorem toU64_lt (x : Int) : toU64 x < wordSize := by
  have h := toU64_cast x
  have h2 : x % 2 ^ 64 < 2 ^ 64 := Int.emod_lt_of_pos _ (by norm_num)
  unfold wordSize
  omega

theorem toI64_of_lt (x : Nat) (h : x < 2 ^ 63) : toI64 x = (x : Int) := by
  unfold toI64
  rw [if_pos h]

/-- C11: `seek(d, absolute)` sets the offset to `d`, `seek(d, relative)` to
`o + d` and `seek(d, eof)` to `o + d + f`, each as a 64-bit word; the value
returned is the new offset, the same 64-bit word read as `off_t` (the same
number when it is below `2 ^ 63`); the node is left as it was. -/
theorem seek_semantics (file : MemoryFile) (node : MemoryNode) (d : Int) :
    (((file.seek node d .absolute).2.1.offset : Nat) : Int) = d % 2 ^ 64 ∧
    (((file.seek node d .relative).2.1.offset : Nat) : Int) =
      ((file.offset : Int) + d) % 2 ^ 64 ∧
    (((file.seek node d .eof).2.1.offset : Nat) : Int) =
      ((file.offset : Int) + d + (node.fileSize : Int)) % 2 ^ 64 ∧
    ∀ whence : VfsSeek,
      (file.seek node d whence).1 = toI64 (file.seek node d whence).2.1.offset ∧
      toU64 (file.seek node d whence).1 = (file.seek node d whence).2.1.offset ∧
      ((file.seek node d whence).2.1.offset < 2 ^ 63 →
        (file.seek node d whence).1 = ((file.seek node d whence).2.1.offset : Int)) ∧
      (file.seek node d whence).2.2 = node := by
  refine ⟨?_, ?_, ?_, ?_⟩
  · simp only [MemoryFile.seek]
    exact toU64_cast d
  · simp only [MemoryFile.seek]
    exact toU64_cast _
  · simp only [MemoryFile.seek]
    rw [toU64_cast, toU64_cast]
    omega
  · intro whence
    have hlt : (file.seek node d whence).2.1.offset < wordSize := by
      cases whence <;> simp only [MemoryFile.seek] <;> exact toU64_lt _
    refine ⟨rfl, ?_, ?_, rfl⟩
    · exact toU64_toI64 _ hlt
    · intro h
      exact toI64_of_lt _ h

/-! ## Theorems: writeAll, allocate and the backing memory -/

/-- C12, the part that holds: on a regular file that satisfies the class
invariant (which the code does not keep once the rounding of `_resizeFile` has wrapped), with handle
offset `o`, size `f` and area `a`, and a buffer of length `len` with
`o + len < 2 ^ 64 - 4095`, `writeAll` returns; afterwards the offset is
`o + len`, the file size is `max f (o + len)`, the area size is
`max a (round_up (max f (o + len)) 4096)`, the bytes at `[o, o + len)` are
the buffer, and the class invariant still holds. -/
theorem writeAll_postcondition (file : MemoryFile) (node : MemoryNode) (buffer : List Byte)
    (h : node.Inv) (hb : file.offset + buffer.length < 2 ^ 64 - 4095) :
    ∃ node', file.writeAll node buffer =
        .ok ({ offset := file.offset + buffer.length }, node') ∧
      node'.fileSize = max node.fileSize (file.offset + buffer.length) ∧
      node'.areaSize = max node.areaSize
        ((max node.fileSize (file.offset + buffer.length) + 4095) / 4096 * 4096) ∧
      readBytes node'.bytes file.offset buffer.length = buffer ∧
      node'.Inv := by
  have hmod : (file.offset + buffer.length) % wordSize = file.offset + buffer.length :=
    Nat.mod_eq_of_lt (by unfold wordSize; omega)
  have hsl := h.size_le
  have hal := h.area_lt
  obtain ⟨k, hk⟩ := h.aligned
  unfold wordSize at hal
  by_cases hr : file.offset + buffer.length > node.fileSize
  · -- the file grows
    have hn : file.offset + buffer.length + 4095 < wordSize := by unfold wordSize; omega
    have hinv := node.resizeFile_inv (file.offset + buffer.length) h hn
    obtain ⟨hf, hby, ha, _, _⟩ := node.resizeFile_spec (file.offset + buffer.length)
    have hae := alignedSize_eq (file.offset + buffer.length)
    rw [Nat.mod_eq_of_lt (by unfold wordSize at hn; exact hn)] at hae
    have hc : mappingCovers (node._resizeFile (file.offset + buffer.length)).mapping
        file.offset buffer.length = true := by
      rw [hinv.mapping_eq]
      have := hinv.size_le
      rw [hf] at this
      by_cases hz : (node._resizeFile (file.offset + buffer.length)).areaSize = 0
      · have : buffer.length = 0 := by omega
        simp [mappingCovers, this]
      · simp only [mappingCovers, hz, if_false, Bool.or_eq_true, decide_eq_true_eq]
        right
        exact this
    refine ⟨{ node._resizeFile (file.offset + buffer.length) with
        bytes := writeBytes (node._resizeFile (file.offset + buffer.length)).bytes
          file.offset buffer }, ?_, ?_, ?_, ?_, ?_⟩
    · simp only [MemoryFile.writeAll, hmod, hr, if_true, hc, not_true, if_false]
    · simp only [hf]
      omega
    · simp only [ha, hae]
      have : max node.fileSize (file.offset + buffer.length) = file.offset + buffer.length := by
        omega
      rw [this]
    · exact readBytes_writeBytes _ _ _
    · exact ⟨hinv.aligned, hinv.area_lt, hinv.size_le, hinv.memory_eq, hinv.mapping_eq⟩
  · -- the write stays inside the file
    have hc : mappingCovers node.mapping file.offset buffer.length = true := by
      rw [h.mapping_eq]
      by_cases hz : node.areaSize = 0
      · have : buffer.length = 0 := by omega
        simp [mappingCovers, this]
      · simp only [mappingCovers, hz, if_false, Bool.or_eq_true, decide_eq_true_eq]
        right
        omega
    refine ⟨{ node with bytes := writeBytes node.bytes file.offset buffer }, ?_, ?_, ?_, ?_, ?_⟩
    · simp only [MemoryFile.writeAll, hmod, hr, if_false, hc, not_true]
    · simp only
      omega
    · simp only
      have : max node.fileSize (file.offset + buffer.length) = node.fileSize := by omega
      rw [this]
      omega
    · exact readBytes_writeBytes _ _ _
    · exact ⟨h.aligned, h.area_lt, h.size_le, h.memory_eq, h.mapping_eq⟩

/-- The example of C12: on a fresh file, one byte written at
offset 5000 gives file size 5001 and area size 8192. -/
theorem writeAll_postcondition_fresh :
    (∃ node', MemoryFile.writeAll { offset := 5000 } (MemoryNode.new fun _ => 0) [88] =
        .ok ({ offset := 5000 + [88].length }, node') ∧
      node'.fileSize = max (MemoryNode.new fun _ => 0).fileSize (5000 + [88].length) ∧
      node'.areaSize = max (MemoryNode.new fun _ => 0).areaSize
        ((max (MemoryNode.new fun _ => 0).fileSize (5000 + [88].length) + 4095) / 4096 * 4096) ∧
      readBytes node'.bytes 5000 [88].length = [88] ∧
      node'.Inv) ∧
    max (MemoryNode.new fun _ => 0).fileSize (5000 + [88].length) = 5001 ∧
    max (MemoryNode.new fun _ => 0).areaSize
      ((max (MemoryNode.new fun _ => 0).fileSize (5000 + [88].length) + 4095) / 4096 * 4096)
      = 8192 :=
  ⟨writeAll_postcondition { offset := 5000 } (MemoryNode.new fun _ => 0) [88]
    (MemoryNode.new_inv _) (by decide), by decide, by decide⟩

/-- C18: `allocate(0, size)` returns the node as it is when `size ≤ file_size`
and otherwise does what `truncate(size)` does, `file_size` becoming `size`;
so the file size never decreases; the handle is left as it is; a non-zero
offset fails the assertion. -/
theorem allocate_contract (file : MemoryFile) (node : MemoryNode) (size : Nat)
    (hs : size < wordSize) :
    (size ≤ node.fileSize → file.allocate node 0 size = .ok (file, node)) ∧
    (node.fileSize < size →
      file.allocate node 0 size = .ok (file.truncate node size) ∧
      (file.truncate node size).2.fileSize = size) ∧
    (∀ file' node', file.allocate node 0 size = .ok (file', node') →
      file' = file ∧ node.fileSize ≤ node'.fileSize) ∧
    (∀ offset : Int, offset ≠ 0 → file.allocate node offset size = .error .assertion) := by
  have hu : toU64 (size : Int) = size := by
    unfold toU64
    unfold wordSize at hs ⊢
    omega
  have hle : size ≤ node.fileSize → file.allocate node 0 size = .ok (file, node) := by
    intro h
    simp [MemoryFile.allocate, hu, h]
  have hgt : node.fileSize < size →
      file.allocate node 0 size = .ok (file.truncate node size) := by
    intro h
    have : ¬ size ≤ node.fileSize := by omega
    simp [MemoryFile.allocate, hu, this, MemoryFile.truncate]
  refine ⟨hle, fun h => ⟨hgt h, (node.resizeFile_spec size).1⟩, ?_, ?_⟩
  · intro file' node' he
    by_cases h : size ≤ node.fileSize
    · rw [hle h] at he
      simp only [Except.ok.injEq, Prod.mk.injEq] at he
      obtain ⟨rfl, rfl⟩ := he
      exact ⟨rfl, Nat.le_refl _⟩
    · rw [hgt (by omega)] at he
      simp only [MemoryFile.truncate, Except.ok.injEq, Prod.mk.injEq] at he
      obtain ⟨rfl, rfl⟩ := he
      refine ⟨rfl, ?_⟩
      rw [(node.resizeFile_spec size).1]
      omega
  · intro offset ho
    simp [MemoryFile.allocate, ho]

/-- C18 at a concrete file: `sampleNode` holds six bytes, `allocate(0, 5000)`. -/
theorem allocate_contract_sample :
    (5000 ≤ sampleNode.fileSize →
      MemoryFile.new.allocate sampleNode 0 5000 = .ok (MemoryFile.new, sampleNode)) ∧
    (sampleNode.fileSize < 5000 →
      MemoryFile.new.allocate sampleNode 0 5000 = .ok (MemoryFile.new.truncate sampleNode 5000) ∧
      (MemoryFile.new.truncate sampleNode 5000).2.fileSize = 5000) ∧
    (∀ file' node', MemoryFile.new.allocate sampleNode 0 5000 = .ok (file', node') →
      file' = MemoryFile.new ∧ sampleNode.fileSize ≤ node'.fileSize) ∧
    (∀ offset : Int, offset ≠ 0 →
      MemoryFile.new.allocate sampleNode offset 5000 = .error .assertion) :=
  allocate_contract MemoryFile.new sampleNode 5000 (by decide)

theorem MemoryNode.new_backed (fill : Nat → Byte) : (MemoryNode.new fill).Backed :=
  ⟨rfl, rfl⟩

theorem MemoryNode.resizeFile_backed (node : MemoryNode) (n : Nat) (h : node.Backed) :
    (node._resizeFile n).Backed := by
  rcases Nat.lt_or_ge node.areaSize (alignedSize n) with h1 | h1
  · rw [node.resizeFile_grow n h1]
    have hne : alignedSize n ≠ 0 := by omega
    exact ⟨by simp [hne], by simp [hne]⟩
  · rw [node.resizeFile_keep n h1]
    exact ⟨h.memory_eq, h.mapping_eq⟩

theorem MemoryOp.run_backed (op : MemoryOp) (node node' : MemoryNode) (hb : node.Backed)
    (h : op.run node = .ok node') : node'.Backed := by
  cases op with
  | truncate size =>
    simp only [MemoryOp.run, MemoryFile.truncate, Except.ok.injEq] at h
    subst h
    exact node.resizeFile_backed size hb
  | writeAll offset buffer =>
    by_cases hr : (offset + buffer.length) % wordSize > node.fileSize
    · by_cases hc : mappingCovers (node._resizeFile ((offset + buffer.length) % wordSize)).mapping
          offset buffer.length = true
      · simp only [MemoryOp.run, MemoryFile.writeAll, hr, hc, if_true, not_true, if_false,
          Except.ok.injEq] at h
        subst h
        have := node.resizeFile_backed ((offset + buffer.length) % wordSize) hb
        exact ⟨this.memory_eq, this.mapping_eq⟩
      · simp [MemoryOp.run, MemoryFile.writeAll, hr, hc] at h
    · by_cases hc : mappingCovers node.mapping offset buffer.length = true
      · simp only [MemoryOp.run, MemoryFile.writeAll, hr, hc, if_true, not_true, if_false,
          Except.ok.injEq] at h
        subst h
        exact ⟨hb.memory_eq, hb.mapping_eq⟩
      · simp [MemoryOp.run, MemoryFile.writeAll, hr, hc] at h
  | allocate offset size =>
    by_cases h0 : offset ≠ 0
    · simp [MemoryOp.run, MemoryFile.allocate, h0] at h
    · by_cases hs : toU64 (offset + size) ≤ node.fileSize
      · simp only [MemoryOp.run, MemoryFile.allocate, h0, hs, if_true, if_false,
          Except.ok.injEq] at h
        subst h
        exact hb
      · simp only [MemoryOp.run, MemoryFile.allocate, h0, hs, if_true, if_false,
          Except.ok.injEq] at h
        subst h
        exact node.resizeFile_backed _ hb

theorem runMemoryOps_backed (ops : List MemoryOp) (node node' : MemoryNode) (hb : node.Backed)
    (h : runMemoryOps ops node = .ok node') : node'.Backed := by
  induction ops generalizing node with
  | nil =>
    simp only [runMemoryOps, Except.ok.injEq] at h
    subst h
    exact hb
  | cons op ops ih =>
    simp only [runMemoryOps] at h
    split at h
    · rename_i node₁ h₁
      exact ih node₁ (op.run_backed node node₁ hb h₁) h
    · cases h

/-- C20: after any sequence of `truncate`, `writeAll` and `allocate` calls on a
fresh node that all return, the memory object is there exactly when the area
is not empty; when it is there, its size and the length of the mapping are
the area size; and `accessMemory` hands out no memory object exactly when the
area is still empty, that is, when the file never grew. -/
theorem backing_memory_presence (fill : Nat → Byte) (ops : List MemoryOp) (node : MemoryNode)
    (file : MemoryFile) (h : runMemoryOps ops (MemoryNode.new fill) = .ok node) :
    (node.memory.isSome = true ↔ 0 < node.areaSize) ∧
    (∀ m, node.memory = some m → m = node.areaSize ∧ node.mapping = some node.areaSize) ∧
    ((file.accessMemory node).1 = none ↔ node.areaSize = 0) ∧
    (file.accessMemory node).2 = (file, node) := by
  have hb := runMemoryOps_backed ops _ node (MemoryNode.new_backed fill) h
  have hm := hb.memory_eq
  have hp := hb.mapping_eq
  by_cases hz : node.areaSize = 0
  · rw [if_pos hz] at hm hp
    refine ⟨?_, ?_, ?_, rfl⟩
    · simp [hm, hz]
    · intro m hmm
      rw [hm] at hmm
      cases hmm
    · simp [MemoryFile.accessMemory, hm, hz]
  · rw [if_neg hz] at hm hp
    refine ⟨?_, ?_, ?_, rfl⟩
    · simp [hm]
      omega
    · intro m hmm
      rw [hm] at hmm
      exact ⟨(Option.some.inj hmm).symm, hp⟩
    · simp [MemoryFile.accessMemory, hm, hz]

/-- C20 at a concrete run: a write at offset 5000, then `truncate(0)`. -/
theorem backing_memory_presence_sample :
    (sampleGrown.memory.isSome = true ↔ 0 < sampleGrown.areaSize) ∧
    (∀ m, sampleGrown.memory = some m →
      m = sampleGrown.areaSize ∧ sampleGrown.mapping = some sampleGrown.areaSize) ∧
    ((MemoryFile.new.accessMemory sampleGrown).1 = none ↔ sampleGrown.areaSize = 0) ∧
    (MemoryFile.new.accessMemory sampleGrown).2 = (MemoryFile.new, sampleGrown) :=
  backing_memory_presence (fun _ => 0) sampleGrownOps sampleGrown MemoryFile.new rfl

/-! ## Theorems: lookup, unlink and creation in a directory -/

theorem EntrySet.find_erase {entries : EntrySet} {link : Link} (hs : EntrySet.Sorted entries)
    (hl : link ∈ entries) (name : Name) :
    EntrySet.find (List.erase entries link) name =
      if name = link.name then none else EntrySet.find entries name := by
  have hse := EntrySet.erase_sorted link hs
  by_cases hn : name = link.name
  · rw [if_pos hn, EntrySet.find_none_iff hse]
    intro x hx hxn
    obtain ⟨hne, hxm⟩ := (EntrySet.mem_erase hs).mp hx
    have h1 := EntrySet.find_of_mem hs hxm
    have h2 := EntrySet.find_of_mem hs hl
    rw [hxn, hn, h2] at h1
    exact hne (Option.some.inj h1).symm
  · rw [if_neg hn]
    cases hf : EntrySet.find entries name with
    | none =>
      rw [EntrySet.find_none_iff hse]
      intro x hx
      exact (EntrySet.find_none_iff hs).mp hf x (List.mem_of_mem_erase hx)
    | some x =>
      obtain ⟨hxm, hxn⟩ := EntrySet.find_some hf
      have hne : x ≠ link := by
        rintro rfl
        exact hn hxn.symm
      have := EntrySet.find_of_mem hse ((EntrySet.mem_erase hs).mpr ⟨hne, hxm⟩)
      rw [hxn] at this
      exact this

theorem EntrySet.find_insert_self {entries : EntrySet} {link : Link}
    (hs : EntrySet.Sorted entries) (habs : EntrySet.find entries link.name = none) :
    EntrySet.find (EntrySet.insert entries link) link.name = some link :=
  EntrySet.find_of_mem (EntrySet.insert_sorted link hs)
    (EntrySet.mem_insert_self ((EntrySet.find_none_iff hs).mp habs))

theorem EntrySet.find_insert_other {entries : EntrySet} {link : Link}
    (hs : EntrySet.Sorted entries) (habs : EntrySet.find entries link.name = none)
    (name : Name) (hn : name ≠ link.name) :
    EntrySet.find (EntrySet.insert entries link) name = EntrySet.find entries name := by
  have hsi := EntrySet.insert_sorted link hs
  cases hf : EntrySet.find entries name with
  | none =>
    rw [EntrySet.find_none_iff hsi]
    intro x hx
    rcases EntrySet.mem_insert hx with h | rfl
    · exact (EntrySet.find_none_iff hs).mp hf x h
    · exact fun e => hn e.symm
  | some x =>
    obtain ⟨hxm, hxn⟩ := EntrySet.find_some hf
    have := EntrySet.find_of_mem hsi (@EntrySet.mem_insert_of_mem entries link x hxm)
    rw [hxn] at this
    exact this

theorem World.updateDirectory_eq {w : World} {id : NodeId} {dir : DirectoryNode}
    (f : DirectoryNode → DirectoryNode) (h : w.directory id = .ok dir) :
    w.updateDirectory id f = .ok (w.setDirectory id (f dir)) := by
  simp only [World.updateDirectory, h]

theorem World.construct_eq (w : World) (body : NodeBody)
    (hc : w.superblock.inodeCounter < 2 ^ 63 - 1) :
    w.construct body =
      .ok (w.nodeCount,
        { w with superblock := { inodeCounter := w.superblock.inodeCounter + 1 },
                 nodeCount := w.nodeCount + 1,
                 node := Function.update w.node w.nodeCount
                   (some { inodeNumber := w.superblock.inodeCounter, body := body }) }) := by
  have h : ¬ w.superblock.inodeCounter ≥ 2 ^ 63 - 1 := by omega
  unfold World.construct Superblock.allocateInode
  rw [if_neg h]

theorem World.makeLink_eq (w : World) (owner : NodeId) (name : Name) (target : NodeId)
    (hn : name ≠ []) :
    w.makeLink (some owner) name target =
      .ok ({ addr := w.linkCount, owner := some owner, name := name, target := target },
        { w with linkCount := w.linkCount + 1 }) := by
  cases name with
  | nil => exact absurd rfl hn
  | cons c cs => simp [World.makeLink, Link.new]

theorem World.directory_update_other (w : World) (k j : NodeId) (v : Option Node) (sb : Superblock) (nc lc : Nat) (hj : j ≠ k) :
    ({ superblock := sb, nodeCount := nc, node := Function.update w.node k v,
       linkCount := lc } : World).directory j = w.directory j := by
  simp [World.directory, Function.update_noteq hj]

/-- What `unlink` leaves behind when the name is there. -/
theorem DirectoryNode.unlink_spec (w : World) (self : NodeId) (dir : DirectoryNode)
    (name : Name) (link : Link) (hd : w.directory self = .ok dir)
    (hf : dir.entries.find name = some link) :
    DirectoryNode.unlink w self name =
      .ok (w.setDirectory self
        { dir with entries := List.erase dir.entries link,
                   notified := dir.notified ++
                     [{ event := .deleteEvent, name := name, cookie := 0 }] }) := by
  have hm := (EntrySet.find_some hf).1
  simp only [DirectoryNode.unlink, hd, hf, EntrySet.erase_ok hm]

/-- C14: `unlink(n)` on a directory that holds an entry named `n` returns, and
the calls of `notifyObservers` recorded on that directory are those from
before followed by the one call `(deleteEvent, n, 0)`; no other directory
object is touched. -/
theorem unlink_notifies_once (w : World) (self : NodeId) (dir : DirectoryNode) (n : Name)
    (link : Link) (hd : w.directory self = .ok dir) (hf : dir.entries.find n = some link) :
    ∃ w' dir', DirectoryNode.unlink w self n = .ok w' ∧
      w'.directory self = .ok dir' ∧
      dir'.notified = dir.notified ++ [{ event := .deleteEvent, name := n, cookie := 0 }] ∧
      ∀ j, j ≠ self → w'.directory j = w.directory j := by
  refine ⟨_, _, DirectoryNode.unlink_spec w self dir n link hd hf,
    w.directory_setDirectory_same self dir _ hd, rfl, ?_⟩
  intro j hj
  exact w.directory_setDirectory_other self j _ hj

/-- C14 at a concrete tree: `unlink("c")` in the root of `sampleTree`. -/
theorem unlink_notifies_once_sample :
    ∃ w' dir', DirectoryNode.unlink sampleTree 0 [99] = .ok w' ∧
      w'.directory 0 = .ok dir' ∧
      dir'.notified = sampleRoot.notified ++
        [{ event := .deleteEvent, name := [99], cookie := 0 }] ∧
      ∀ j, j ≠ 0 → w'.directory j = sampleTree.directory j :=
  unlink_notifies_once sampleTree 0 sampleRoot [99] linkC sampleTree_root (by decide)

/-- C15: on a directory that satisfies its class invariant, `unlink(n)` of a
present name returns; afterwards `getLink(n)` finds nothing and `getLink(m)`
for every other name finds what it found before.  On a name that is not
there `unlink` fails its assertion. -/
theorem unlink_removes_named_entry (w : World) (self : NodeId) (dir : DirectoryNode)
    (hd : w.directory self = .ok dir) (hwf : dir.WF self) (n : Name) :
    (∀ link, dir.entries.find n = some link →
      ∃ w', DirectoryNode.unlink w self n = .ok w' ∧
        DirectoryNode.getLink w' self n = .ok (none, w') ∧
        ∀ m, m ≠ n →
          DirectoryNode.getLink w self m = .ok (dir.entries.find m, w) ∧
          DirectoryNode.getLink w' self m = .ok (dir.entries.find m, w')) ∧
    (dir.entries.find n = none → DirectoryNode.unlink w self n = .error .assertion) := by
  constructor
  · intro link hf
    obtain ⟨hm, hname⟩ := EntrySet.find_some hf
    have hd' := w.directory_setDirectory_same self dir
      { dir with entries := List.erase dir.entries link,
                 notified := dir.notified ++
                   [{ event := .deleteEvent, name := n, cookie := 0 }] } hd
    refine ⟨_, DirectoryNode.unlink_spec w self dir n link hd hf, ?_, ?_⟩
    · simp only [DirectoryNode.getLink, hd']
      rw [EntrySet.find_erase hwf.sorted hm, if_pos hname.symm]
    · intro m hmn
      refine ⟨by simp only [DirectoryNode.getLink, hd], ?_⟩
      simp only [DirectoryNode.getLink, hd']
      rw [EntrySet.find_erase hwf.sorted hm, if_neg (by rw [hname]; exact hmn)]
  · intro hf
    simp only [DirectoryNode.unlink, hd, hf]

/-- C15 at a concrete tree: `unlink("b")` in the root of `sampleTree`, where
`b` is present, and `unlink("z")`, where `z` is not. -/
theorem unlink_removes_named_entry_sample :
    sampleRoot.entries.find [98] = some linkB ∧
    (∃ w', DirectoryNode.unlink sampleTree 0 [98] = .ok w' ∧
      DirectoryNode.getLink w' 0 [98] = .ok (none, w') ∧
      ∀ m, m ≠ [98] →
        DirectoryNode.getLink sampleTree 0 m = .ok (sampleRoot.entries.find m, sampleTree) ∧
        DirectoryNode.getLink w' 0 m = .ok (sampleRoot.entries.find m, w')) ∧
    sampleRoot.entries.find [122] = none ∧
    DirectoryNode.unlink sampleTree 0 [122] = .error .assertion :=
  ⟨by decide,
    (unlink_removes_named_entry sampleTree 0 sampleRoot sampleTree_root
      (sampleTree_inv.dirs 0 sampleRoot sampleTree_root) [98]).1 linkB (by decide),
    by decide,
    (unlink_removes_named_entry sampleTree 0 sampleRoot sampleTree_root
      (sampleTree_inv.dirs 0 sampleRoot sampleTree_root) [122]).2 (by decide)⟩

/-! ## Theorems: mkdir on an existing name -/

/-- C13, as amended: on a directory that already holds an entry named `name`,
`mkdir(name)` fails its assertion and returns nothing; and whenever a call of
`mkdir` returns, it returns a link, never the error alternative. -/
theorem mkdir_existing_name_asserts (w : World) (self : NodeId) (dir : DirectoryNode)
    (name : Name) (link : Link) (hd : w.directory self = .ok dir)
    (hf : dir.entries.find name = some link) :
    DirectoryNode.mkdir w self name = .error .assertion ∧
    ∀ (w₀ : World) (self₀ : NodeId) (name₀ : Name) (r : Sum Error Link) (w' : World),
      DirectoryNode.mkdir w₀ self₀ name₀ = .ok (r, w') → ∃ l, r = .inr l := by
  constructor
  · simp [DirectoryNode.mkdir, DirectoryNode.assertAbsent, hd, hf]
  · intro w₀ self₀ name₀ r w' h
    unfold DirectoryNode.mkdir at h
    split at h
    · cases h
    · split at h
      · cases h
      · split at h
        · cases h
        · split at h
          · cases h
          · split at h
            · cases h
            · rename_i l _ _ _ _ _
              simp only [Except.ok.injEq, Prod.mk.injEq] at h
              exact ⟨_, h.1.symm⟩

/-- C13 at a concrete tree: `mkdir("a")` in the root of `sampleTree`. -/
theorem mkdir_existing_name_asserts_sample :
    DirectoryNode.mkdir sampleTree 0 [97] = .error .assertion ∧
    ∀ (w₀ : World) (self₀ : NodeId) (name₀ : Name) (r : Sum Error Link) (w' : World),
      DirectoryNode.mkdir w₀ self₀ name₀ = .ok (r, w') → ∃ l, r = .inr l :=
  mkdir_existing_name_asserts sampleTree 0 sampleRoot [97] linkA sampleTree_root (by decide)

/-- C13 as stated fails: the root of `sampleTree` holds an entry named `a`, and
`mkdir("a")` there fails the assertion; it does not return the already-exists
alternative. -/
theorem mkdir_existing_name_returns_no_error_variant :
    sampleTree.entries 0 = .ok [linkA, linkB, linkC] ∧
    EntrySet.find [linkA, linkB, linkC] [97] = some linkA ∧
    DirectoryNode.mkdir sampleTree 0 [97] = .error .assertion ∧
    ¬ ∃ w', DirectoryNode.mkdir sampleTree 0 [97] = .ok (.inl .alreadyExists, w') := by
  refine ⟨rfl, by decide, rfl, ?_⟩
  rintro ⟨w', h⟩
  have h2 : DirectoryNode.mkdir sampleTree 0 [97] = .error .assertion := rfl
  rw [h2] at h
  cases h

/-! ## Theorems: lookup after creation -/

/-- C16: in a directory `D` constructed earlier, for a non-empty name without
entry, `mkdir(name)` returns a link that `getLink(name)` then finds, with
owner `D`, that name, and as target a node that did not exist before, an
empty directory whose `_treeLink` is the link; `link(name, t)` returns a link
that `getLink(name)` then finds, with owner `D`, that name and target `t`;
`getLink` of a name without entry finds nothing; `getLink` leaves all objects
as they are. -/
theorem lookup_after_creation (w : World) (hw : w.Inv) (D : NodeId) (dir : DirectoryNode)
    (name : Name) (t : NodeId) (hd : w.directory D = .ok dir) (hD : D < w.nodeCount)
    (hn : name ≠ []) (habs : dir.entries.find name = none)
    (hc : w.superblock.inodeCounter < 2 ^ 63 - 1) :
    (∃ link w', DirectoryNode.mkdir w D name = .ok (.inr link, w') ∧
      DirectoryNode.getLink w' D name = .ok (some link, w') ∧
      link.owner = some D ∧ link.name = name ∧ link.target = w.nodeCount ∧
      w'.directory link.target =
        .ok { treeLink := some link, entries := [], notified := [] }) ∧
    (∃ link w', DirectoryNode.link w D name t = .ok (link, w') ∧
      DirectoryNode.getLink w' D name = .ok (some link, w') ∧
      link.owner = some D ∧ link.name = name ∧ link.target = t) ∧
    (∀ m, (∀ l ∈ dir.entries, l.name ≠ m) → DirectoryNode.getLink w D m = .ok (none, w)) ∧
    (∀ m r w', DirectoryNode.getLink w D m = .ok (r, w') → w' = w) := by
  have hs := (hw.dirs D dir hd).sorted
  have hassert : DirectoryNode.assertAbsent w D name = .ok () := by
    simp [DirectoryNode.assertAbsent, hd, habs]
  refine ⟨?_, ?_, ?_, ?_⟩
  · -- mkdir
    have hDk : D ≠ w.nodeCount := Nat.ne_of_lt hD
    obtain ⟨w₁, hcon, h₁k, h₁D, h₁l⟩ : ∃ w₁ : World,
        w.construct (.directory DirectoryNode.new) = .ok (w.nodeCount, w₁) ∧
        w₁.directory w.nodeCount = .ok DirectoryNode.new ∧
        w₁.directory D = .ok dir ∧ w₁.linkCount = w.linkCount := by
      refine ⟨_, World.construct_eq w _ hc, ?_, ?_, rfl⟩
      · simp [World.directory]
      · rw [World.directory_update_other w w.nodeCount D _ _ _ _ hDk]
        exact hd
    obtain ⟨link, hlink⟩ : ∃ l : Link, l = ⟨w.linkCount, some D, name, w.nodeCount⟩ := ⟨_, rfl⟩
    obtain ⟨w₂, hw₂⟩ : ∃ x : World, x = { w₁ with linkCount := w₁.linkCount + 1 } := ⟨_, rfl⟩
    have hmk : w₁.makeLink (some D) name w.nodeCount = .ok (link, w₂) := by
      rw [World.makeLink_eq w₁ D name w.nodeCount hn, hlink, hw₂, h₁l]
    have h₂k : w₂.directory w.nodeCount = .ok DirectoryNode.new := hw₂ ▸ h₁k
    have h₂D : w₂.directory D = .ok dir := hw₂ ▸ h₁D
    have h₃D : (w₂.setDirectory w.nodeCount
        { DirectoryNode.new with treeLink := some link }).directory D = .ok dir := by
      rw [w₂.directory_setDirectory_other w.nodeCount D _ hDk]
      exact h₂D
    have h₃k : (w₂.setDirectory w.nodeCount
        { DirectoryNode.new with treeLink := some link }).directory w.nodeCount =
        .ok { DirectoryNode.new with treeLink := some link } :=
      w₂.directory_setDirectory_same w.nodeCount _ _ h₂k
    refine ⟨link, (w₂.setDirectory w.nodeCount
        { DirectoryNode.new with treeLink := some link }).setDirectory D
        { dir with entries := dir.entries.insert link }, ?_, ?_, ?_, ?_, ?_, ?_⟩
    · unfold DirectoryNode.mkdir
      simp only [hassert, hcon, hmk, World.updateDirectory_eq _ h₂k,
        World.updateDirectory_eq _ h₃D]
    · have := World.directory_setDirectory_same _ D dir
        { dir with entries := dir.entries.insert link } h₃D
      simp only [DirectoryNode.getLink, this]
      have hln : link.name = name := by rw [hlink]
      rw [← hln] at habs ⊢
      rw [EntrySet.find_insert_self hs habs]
    · rw [hlink]
    · rw [hlink]
    · rw [hlink]
    · have ht : link.target = w.nodeCount := by rw [hlink]
      rw [ht, World.directory_setDirectory_other _ D w.nodeCount _ (Ne.symm hDk), h₃k]
      rfl
  · -- link
    obtain ⟨link, hlink⟩ : ∃ l : Link, l = ⟨w.linkCount, some D, name, t⟩ := ⟨_, rfl⟩
    obtain ⟨w₂, hw₂⟩ : ∃ x : World, x = { w with linkCount := w.linkCount + 1 } := ⟨_, rfl⟩
    have hmk : w.makeLink (some D) name t = .ok (link, w₂) := by
      rw [World.makeLink_eq w D name t hn, hlink, hw₂]
    have hdl : w₂.directory D = .ok dir := hw₂ ▸ hd
    refine ⟨link, w₂.setDirectory D { dir with entries := dir.entries.insert link },
      ?_, ?_, ?_, ?_, ?_⟩
    · unfold DirectoryNode.link DirectoryNode.insertLink
      simp only [hassert, hmk, World.updateDirectory_eq _ hdl]
    · have := World.directory_setDirectory_same _ D dir
        { dir with entries := dir.entries.insert link } hdl
      simp only [DirectoryNode.getLink, this]
      have hln : link.name = name := by rw [hlink]
      rw [← hln] at habs ⊢
      rw [EntrySet.find_insert_self hs habs]
    · rw [hlink]
    · rw [hlink]
    · rw [hlink]
  · intro m hm
    simp only [DirectoryNode.getLink, hd, (EntrySet.find_none_iff hs).mpr hm]
  · intro m r w' h
    simp only [DirectoryNode.getLink, hd, Except.ok.injEq, Prod.mk.injEq] at h
    exact h.2.symm

/-- C16 at a concrete tree: `mkdir("d")` and `link("d", node 3)` in the root of
`sampleTree`. -/
theorem lookup_after_creation_sample :
    (∃ link w', DirectoryNode.mkdir sampleTree 0 [100] = .ok (.inr link, w') ∧
      DirectoryNode.getLink w' 0 [100] = .ok (some link, w') ∧
      link.owner = some 0 ∧ link.name = [100] ∧ link.target = sampleTree.nodeCount ∧
      w'.directory link.target =
        .ok { treeLink := some link, entries := [], notified := [] }) ∧
    (∃ link w', DirectoryNode.link sampleTree 0 [100] 3 = .ok (link, w') ∧
      DirectoryNode.getLink w' 0 [100] = .ok (some link, w') ∧
      link.owner = some 0 ∧ link.name = [100] ∧ link.target = 3) ∧
    (∀ m, (∀ l ∈ sampleRoot.entries, l.name ≠ m) →
      DirectoryNode.getLink sampleTree 0 m = .ok (none, sampleTree)) ∧
    (∀ m r w', DirectoryNode.getLink sampleTree 0 m = .ok (r, w') → w' = sampleTree) :=
  lookup_after_creation sampleTree sampleTree_inv 0 sampleRoot [100] 3 sampleTree_root
    (by decide) (by decide) (by decide) (by decide)

/-! ## Theorems: statistics -/

/-- C17, the part that holds: a node of any class other than `MemoryNode`
reports the inode number it got at construction, and a `MemoryNode` reports
its current file size. -/
theorem Node.stats_parts (node : Node) :
    ((∀ mem, node.body ≠ .memory mem) → node.stats.inodeNumber = node.inodeNumber) ∧
    (∀ mem, node.body = .memory mem → node.stats.fileSize = mem.fileSize) := by
  constructor
  · intro h
    unfold Node.stats
    split
    · rename_i mem hb
      exact absurd hb (h mem)
    · rfl
  · intro mem h
    unfold Node.stats
    rw [h]
    rfl

/-- C17: the regular node of `sampleHardLinks` (node 1) was constructed with
inode number 2; its `getStats` reports inode number 0.  The same for a
`MemoryNode` of six bytes with inode number 2: the file size is reported, the
inode number is not. -/
theorem memory_node_stats_drop_inode_number :
    runTreeOps sampleHardLinksOps World.empty = .ok sampleHardLinks ∧
    (sampleHardLinks.node 1).map Node.inodeNumber = some 2 ∧
    sampleHardLinks.stats 1 = some { inodeNumber := 0, fileSize := 0 } ∧
    Node.stats { inodeNumber := 2, body := .memory sampleNode } =
      { inodeNumber := 0, fileSize := 6 } :=
  ⟨rfl, rfl, rfl, rfl⟩

/-! ## Theorems: the tree link -/

/-- C19, the part that holds at creation: `createRootDirectory` on the empty
store returns the root link, nameless and ownerless, targeting the root
directory, and stores it as the `_treeLink` of that directory. -/
theorem createRoot_sets_treeLink :
    ∃ w, createRoot World.empty = .ok (Link.root 0 0, w) ∧
      w.treeLink 0 = .ok (some (Link.root 0 0)) ∧
      (Link.root 0 0).owner = none ∧ (Link.root 0 0).name = [] ∧
      (Link.root 0 0).target = 0 :=
  ⟨_, rfl, rfl, rfl, rfl, rfl⟩

/-- C19: after `createRoot`, `mkdir("a")` the directory `a` (node 1) has
`_treeLink` equal to `linkA`, the link that names it in the root.
`rename(a, root, "b")` returns a new link, which then is the only entry of the
root and names node 1; the `_treeLink` of node 1 is still `linkA`. -/
theorem rename_leaves_treeLink_stale :
    runTreeOps sampleOneDirOps World.empty = .ok sampleOneDir ∧
    sampleOneDir.entries 0 = .ok [linkA] ∧
    sampleOneDir.treeLink 1 = .ok (some linkA) ∧
    (match Superblock.rename sampleOneDir linkA 0 [98] with
      | .ok (link, _) => some link
      | .error _ => none) = some renamedLinkB ∧
    sampleRenamed.entries 0 = .ok [renamedLinkB] ∧
    renamedLinkB.target = 1 ∧
    sampleRenamed.treeLink 1 = .ok (some linkA) ∧
    linkA ≠ renamedLinkB :=
  ⟨rfl, rfl, rfl, rfl, rfl, rfl, rfl, by decide⟩

/-! ## Theorems: what rename leaves alone -/

theorem EntrySet.find_congr {entries entries' : EntrySet} (hs : EntrySet.Sorted entries)
    (hs' : EntrySet.Sorted entries') (name : Name)
    (h : ∀ l : Link, l.name = name → (l ∈ entries' ↔ l ∈ entries)) :
    EntrySet.find entries' name = EntrySet.find entries name := by
  cases hf : EntrySet.find entries name with
  | none =>
    rw [EntrySet.find_none_iff hs']
    intro l hl hn
    exact (EntrySet.find_none_iff hs).mp hf l ((h l hn).mp hl) hn
  | some x =>
    obtain ⟨hxm, hxn⟩ := EntrySet.find_some hf
    have := EntrySet.find_of_mem hs' ((h x hxn).mpr hxm)
    rw [hxn] at this
    exact this

theorem Superblock.eraseExisting_frame {w w₁ : World} {dest_dir : NodeId} {dest_name : Name}
    (h : Superblock.eraseExisting w dest_dir dest_name = .ok w₁) :
    ∀ j, j ≠ dest_dir → w₁.directory j = w.directory j := by
  intro j hj
  unfold Superblock.eraseExisting at h
  split at h
  · cases h
  · split at h
    · simp only [Except.ok.injEq] at h
      subst h
      rfl
    · split at h
      · cases h
      · simp only [Except.ok.injEq] at h
        subst h
        exact w.directory_setDirectory_other dest_dir j _ hj

/-- The objects that a returning `rename` leaves as they were: every directory
other than source and destination, and, when these two differ, the source
directory but for the erased source link. -/
theorem Superblock.rename_shape {w w' : World} {src_link link : Link} {dest_dir : NodeId}
    {dest_name : Name}
    (h : Superblock.rename w src_link dest_dir dest_name = .ok (link, w')) :
    ∃ src_dir, src_link.owner = some src_dir ∧
      (∀ j, j ≠ src_dir → j ≠ dest_dir → w'.directory j = w.directory j) ∧
      (src_dir ≠ dest_dir → ∀ sdir, w.directory src_dir = .ok sdir →
        w'.directory src_dir =
          .ok { sdir with entries := List.erase sdir.entries src_link }) := by
  unfold Superblock.rename at h
  split at h
  · cases h
  · split at h
    · cases h
    · rename_i src_dir ho
      split at h
      · cases h
      · rename_i sdir₀ hsd₀
        split at h
        · split at h
          · cases h
          · rename_i w₁ he
            split at h
            · cases h
            · rename_i new_link w₂ hm
              split at h
              · cases h
              · rename_i sdir₂ hsd₂
                split at h
                · cases h
                · rename_i entries hee
                  split at h
                  · cases h
                  · rename_i w₃ hu
                    simp only [Except.ok.injEq, Prod.mk.injEq] at h
                    obtain ⟨_, rfl⟩ := h
                    obtain ⟨_, _, _, rfl⟩ := World.makeLink_ok hm
                    obtain ⟨_, rfl⟩ := EntrySet.erase_eq hee
                    obtain ⟨dir, _, rfl⟩ := World.updateDirectory_ok hu
                    have hfr := Superblock.eraseExisting_frame he
                    refine ⟨src_dir, ho, ?_, ?_⟩
                    · intro j hjs hjd
                      rw [World.directory_setDirectory_other _ dest_dir j _ hjd,
                        World.directory_setDirectory_other _ src_dir j _ hjs]
                      exact hfr j hjd
                    · intro hsd_ne sdir hsd
                      have e : sdir₂ = sdir := by
                        have h1 : w₁.directory src_dir = .ok sdir₂ := hsd₂
                        rw [hfr src_dir hsd_ne, hsd] at h1
                        exact (Except.ok.inj h1).symm
                      subst e
                      rw [World.directory_setDirectory_other _ dest_dir src_dir _ hsd_ne]
                      exact World.directory_setDirectory_same _ src_dir sdir₂ _ hsd₂
        · cases h

/-- C21, as amended: for a link `src_link` named `s` in its owner directory `S`
and a destination `(D, n)` with `n` not empty and `(S, s)` other than
`(D, n)`, `rename` returns; afterwards `S` has no entry named `s`, every name
other than `s` (in `S`) and `n` (in `D`) finds in `S` and in `D` the link it
found before, and every other directory object is as it was. -/
theorem rename_removes_source_only (w : World) (hw : w.Inv) (src_link : Link) (S D : NodeId)
    (sdir ddir : DirectoryNode) (n : Name)
    (ho : src_link.owner = some S) (hsd : w.directory S = .ok sdir)
    (hsrc : sdir.entries.find src_link.name = some src_link)
    (hdd : w.directory D = .ok ddir) (hn : n ≠ [])
    (hne : ¬ (S = D ∧ src_link.name = n)) :
    ∃ new w' sdir' ddir', Superblock.rename w src_link D n = .ok (new, w') ∧
      w'.directory S = .ok sdir' ∧ w'.directory D = .ok ddir' ∧
      sdir'.entries.find src_link.name = none ∧
      (∀ m, m ≠ src_link.name → (S = D → m ≠ n) →
        sdir'.entries.find m = sdir.entries.find m) ∧
      (∀ m, m ≠ n → (S = D → m ≠ src_link.name) →
        ddir'.entries.find m = ddir.entries.find m) ∧
      (∀ j, j ≠ S → j ≠ D → w'.directory j = w.directory j) := by
  obtain ⟨w', ddir', hr, hw', hdd', hmem⟩ := Superblock.rename_spec hw ho hsd hsrc hdd hn hne
  obtain ⟨S', hS', hothers, hsource⟩ := Superblock.rename_shape hr
  have hSS : S' = S := by
    rw [ho] at hS'
    exact (Option.some.inj hS').symm
  subst hSS
  have hss := (hw.dirs S' sdir hsd).sorted
  have hds := (hw.dirs D ddir hdd).sorted
  have hds' := (hw'.dirs D ddir' hdd').sorted
  have hsm := (EntrySet.find_some hsrc).1
  -- in the destination, names other than `n` (and than `s` when `S = D`) find what they found
  have hdest : ∀ m, m ≠ n → (S' = D → m ≠ src_link.name) →
      ddir'.entries.find m = ddir.entries.find m := by
    intro m hmn hms
    apply EntrySet.find_congr hds hds'
    intro l hl
    rw [hmem]
    constructor
    · rintro (rfl | h)
      · exact absurd hl.symm hmn
      · exact h.1
    · intro hld
      refine Or.inr ⟨hld, by rw [hl]; exact hmn, ?_⟩
      rintro rfl
      by_cases hSD : S' = D
      · exact hms hSD hl.symm
      · have := ((hw.dirs D ddir hdd).owned l hld).1
        rw [ho] at this
        exact hSD (Option.some.inj this)
  by_cases hSD : S' = D
  · subst hSD
    have hsame : sdir = ddir := by
      rw [hsd] at hdd
      exact Except.ok.inj hdd
    subst hsame
    have hsn : src_link.name ≠ n := fun e => hne ⟨rfl, e⟩
    refine ⟨_, w', ddir', ddir', hr, hdd', hdd', ?_, ?_, hdest, hothers⟩
    · rw [EntrySet.find_none_iff hds']
      intro l hl hls
      rcases (hmem l).mp hl with rfl | h
      · exact hsn hls.symm
      · have h1 := EntrySet.find_of_mem hss h.1
        rw [hls, hsrc] at h1
        exact h.2.2 (Option.some.inj h1).symm
    · intro m hms hmn
      exact hdest m (hmn rfl) (fun _ => hms)
  · have hsd' := hsource hSD sdir hsd
    refine ⟨_, w', _, ddir', hr, hsd', hdd', ?_, ?_, hdest, hothers⟩
    · simp only
      rw [EntrySet.find_erase hss hsm, if_pos rfl]
    · intro m hms _
      simp only
      rw [EntrySet.find_erase hss hsm, if_neg hms]

/-- C21 at a concrete tree: in `sampleTree`, `rename(a, b, "x")` moves the
link `a` of the root (node 0) into the directory `b` (node 2). -/
theorem rename_removes_source_only_sample :
    ∃ new w' sdir' ddir', Superblock.rename sampleTree linkA 2 [120] = .ok (new, w') ∧
      w'.directory 0 = .ok sdir' ∧ w'.directory 2 = .ok ddir' ∧
      sdir'.entries.find linkA.name = none ∧
      (∀ m, m ≠ linkA.name → ((0 : NodeId) = 2 → m ≠ [120]) →
        sdir'.entries.find m = sampleRoot.entries.find m) ∧
      (∀ m, m ≠ [120] → ((0 : NodeId) = 2 → m ≠ linkA.name) →
        ddir'.entries.find m = sampleDirB.entries.find m) ∧
      (∀ j, j ≠ 0 → j ≠ 2 → w'.directory j = sampleTree.directory j) :=
  rename_removes_source_only sampleTree sampleTree_inv linkA 0 2 sampleRoot sampleDirB [120]
    rfl sampleTree_root (by decide) rfl (by decide) (by decide)

/-- C21 as stated fails: in `sampleTree` the link `a` is in its owner
directory, the root, and `(root, "a")` is another pair than `(root, "")`;
`rename(a, root, "")` fails the assertion `!_name.empty()` of the `Link`
constructor and leaves no state in which the source is gone. -/
theorem rename_to_empty_name_asserts :
    sampleTree.entries 0 = .ok [linkA, linkB, linkC] ∧
    linkA.owner = some 0 ∧
    EntrySet.find [linkA, linkB, linkC] linkA.name = some linkA ∧
    ¬ ((0 : NodeId) = 0 ∧ linkA.name = []) ∧
    Superblock.rename sampleTree linkA 0 [] = .error .assertion ∧
    ¬ ∃ new w', Superblock.rename sampleTree linkA 0 [] = .ok (new, w') := by
  refine ⟨rfl, rfl, by decide, by decide, rfl, ?_⟩
  rintro ⟨new, w', h⟩
  have h2 : Superblock.rename sampleTree linkA 0 [] = .error .assertion := rfl
  rw [h2] at h
  cases h

/-! ## Theorems: what writeAll leaves alone -/

/-- Whenever `writeAll` returns, the bytes of the memory object outside
`[o, o + len)` are the bytes from before the call. -/
theorem MemoryFile.writeAll_bytes_outside (file file' : MemoryFile) (node node' : MemoryNode)
    (buffer : List Byte) (h : file.writeAll node buffer = .ok (file', node')) (p : Nat)
    (hp : ¬ (file.offset ≤ p ∧ p < file.offset + buffer.length)) :
    node'.bytes p = node.bytes p := by
  by_cases hr : (file.offset + buffer.length) % wordSize > node.fileSize
  · by_cases hc : mappingCovers
        (node._resizeFile ((file.offset + buffer.length) % wordSize)).mapping
        file.offset buffer.length = true
    · simp only [MemoryFile.writeAll, hr, hc, if_true, not_true, if_false, Except.ok.injEq,
        Prod.mk.injEq] at h
      rw [← h.2]
      simp only [writeBytes, hp, if_false]
      rw [(node.resizeFile_spec _).2.1]
    · simp [MemoryFile.writeAll, hr, hc] at h
  · by_cases hc : mappingCovers node.mapping file.offset buffer.length = true
    · simp only [MemoryFile.writeAll, hr, hc, if_true, not_true, if_false, Except.ok.injEq,
        Prod.mk.injEq] at h
      rw [← h.2]
      simp only [writeBytes, hp, if_false]
    · simp [MemoryFile.writeAll, hr, hc] at h

theorem writeAll_returns (file : MemoryFile) (node : MemoryNode) (buffer : List Byte)
    (h : node.Inv) (hb : file.offset + buffer.length < 2 ^ 64 - 4095) :
    ∃ file' node', file.writeAll node buffer = .ok (file', node') := by
  have hmod : (file.offset + buffer.length) % wordSize = file.offset + buffer.length :=
    Nat.mod_eq_of_lt (by unfold wordSize; omega)
  have hsl := h.size_le
  by_cases hr : file.offset + buffer.length > node.fileSize
  · have hn : file.offset + buffer.length + 4095 < wordSize := by unfold wordSize; omega
    have hinv := node.resizeFile_inv (file.offset + buffer.length) h hn
    have hf := (node.resizeFile_spec (file.offset + buffer.length)).1
    have hc : mappingCovers (node._resizeFile (file.offset + buffer.length)).mapping
        file.offset buffer.length = true := by
      rw [hinv.mapping_eq]
      have := hinv.size_le
      rw [hf] at this
      by_cases hz : (node._resizeFile (file.offset + buffer.length)).areaSize = 0
      · have : buffer.length = 0 := by omega
        simp [mappingCovers, this]
      · simp only [mappingCovers, hz, if_false, Bool.or_eq_true, decide_eq_true_eq]
        right
        exact this
    refine ⟨{ offset := file.offset + buffer.length },
      { node._resizeFile (file.offset + buffer.length) with
        bytes := writeBytes (node._resizeFile (file.offset + buffer.length)).bytes
          file.offset buffer }, ?_⟩
    simp only [MemoryFile.writeAll, hmod, hr, if_true, hc, not_true, if_false]
  · have hc : mappingCovers node.mapping file.offset buffer.length = true := by
      rw [h.mapping_eq]
      by_cases hz : node.areaSize = 0
      · have : buffer.length = 0 := by omega
        simp [mappingCovers, this]
      · simp only [mappingCovers, hz, if_false, Bool.or_eq_true, decide_eq_true_eq]
        right
        omega
    refine ⟨{ offset := file.offset + buffer.length },
      { node with bytes := writeBytes node.bytes file.offset buffer }, ?_⟩
    simp only [MemoryFile.writeAll, hmod, hr, if_false, hc, not_true]

/-- The frame of `writeAll` together with its return: on a regular file that satisfies the
class invariant, when rounding `o + len` up to a page does not wrap, `writeAll`
returns and every byte at a position `p < f` outside `[o, o + len)` is the
byte from before the call. -/
theorem writeAll_returns_and_preserves_rest (file : MemoryFile) (node : MemoryNode)
    (buffer : List Byte) (h : node.Inv)
    (hb : file.offset + buffer.length < 2 ^ 64 - 4095) :
    ∃ file' node', file.writeAll node buffer = .ok (file', node') ∧
      ∀ p, p < node.fileSize → ¬ (file.offset ≤ p ∧ p < file.offset + buffer.length) →
        node'.bytes p = node.bytes p := by
  obtain ⟨file', node', hw⟩ := writeAll_returns file node buffer h hb
  exact ⟨file', node', hw,
    fun p _ hp => MemoryFile.writeAll_bytes_outside file file' node node' buffer hw p hp⟩

/-- The defect of C1 and C2 seen from `writeAll`: `sampleNode` satisfies the
class invariant and holds six bytes; with the handle at offset `2 ^ 64 - 2`,
where `o + len = 2 ^ 64 - 1` does not overflow, the write of one byte makes
`_resizeFile` round `2 ^ 64 - 1` up to `0`, the area stays one page and the
copy leaves the mapping.  The call leaves no state, so no byte of the file is
seen changed. -/
theorem writeAll_faults_at_word_limit :
    sampleNode.fileSize = 6 ∧ sampleNode.areaSize = 4096 ∧
    (2 ^ 64 - 2) + [7].length < 2 ^ 64 ∧
    alignedSize ((2 ^ 64 - 2) + [7].length) = 0 ∧
    MemoryFile.writeAll { offset := 2 ^ 64 - 2 } sampleNode [7] = .error .badAccess := by
  refine ⟨rfl, rfl, by decide, by decide, rfl⟩

/-- C22: whenever `writeAll` returns, every byte of the memory object at a
position `p` outside `[o, o + len)`, in particular every byte of the file at
`p < f` outside that range, has the value it had before the call; a resize
keeps the content of the memory object. -/
theorem writeAll_preserves_rest (file file' : MemoryFile) (node node' : MemoryNode)
    (buffer : List Byte) (h : file.writeAll node buffer = .ok (file', node')) (p : Nat)
    (hp : ¬ (file.offset ≤ p ∧ p < file.offset + buffer.length)) :
    node'.bytes p = node.bytes p :=
  MemoryFile.writeAll_bytes_outside file file' node node' buffer h p hp

/-- C22 at a concrete file: two bytes written into `sampleNode` (six bytes) at
offset 2; the bytes at positions 0 and 5 are as before. -/
theorem writeAll_preserves_rest_sample :
    MemoryFile.writeAll { offset := 2 } sampleNode [7, 8] =
      .ok (sampleWritten.1, sampleWritten.2) ∧
    sampleWritten.2.bytes 0 = sampleNode.bytes 0 ∧
    sampleWritten.2.bytes 5 = sampleNode.bytes 5 :=
  ⟨rfl,
    writeAll_preserves_rest { offset := 2 } sampleWritten.1 sampleNode sampleWritten.2 [7, 8]
      rfl 0 (by decide),
    writeAll_preserves_rest { offset := 2 } sampleWritten.1 sampleNode sampleWritten.2 [7, 8]
      rfl 5 (by decide)⟩

/-! ## Theorems: regular files after the rounding has wrapped -/

/-- C8: `sampleOverflowed` is reached from a fresh node by `truncate(2 ^ 64 - 1)`
and has file size `2 ^ 64 - 1`, area size `0` and no memory object.  There
`truncate(5000)`, with `5000 < file_size`, sets the file size to `5000`, but
allocates a memory object and raises the area size to `8192`. -/
theorem truncate_after_overflow_grows_area :
    runMemoryOps [.truncate (2 ^ 64 - 1)] (MemoryNode.new fun _ => 0) = .ok sampleOverflowed ∧
    sampleOverflowed.fileSize = 2 ^ 64 - 1 ∧
    sampleOverflowed.areaSize = 0 ∧
    sampleOverflowed.memory = none ∧
    5000 < sampleOverflowed.fileSize ∧
    (MemoryFile.new.truncate sampleOverflowed 5000).2.fileSize = 5000 ∧
    (MemoryFile.new.truncate sampleOverflowed 5000).2.areaSize = 8192 ∧
    (MemoryFile.new.truncate sampleOverflowed 5000).2.memory = some 8192 ∧
    (MemoryFile.new.truncate sampleOverflowed 5000).2.mapping = some 8192 := by
  refine ⟨rfl, by decide, by decide, by decide, by decide, by decide, by decide, by decide,
    by decide⟩

/-- C9: on `sampleOverflowed` (file size `2 ^ 64 - 1`, nothing mapped) a handle
at offset `0` satisfies `offset ≤ file_size`; `readSome(buf, 1)` passes the
assertion, takes `min (file_size - offset) 1 = 1` as chunk and copies from the
absent mapping. -/
theorem readSome_after_overflow_faults :
    runMemoryOps [.truncate (2 ^ 64 - 1)] (MemoryNode.new fun _ => 0) = .ok sampleOverflowed ∧
    MemoryFile.new.offset ≤ sampleOverflowed.fileSize ∧
    min (sampleOverflowed.fileSize - MemoryFile.new.offset) 1 = 1 ∧
    sampleOverflowed.mapping = none ∧
    MemoryFile.new.readSome sampleOverflowed 1 = .error .badAccess := by
  refine ⟨rfl, by decide, by decide, by decide, rfl⟩

/-- C12: on `sampleOverflowed` (file size `2 ^ 64 - 1`, nothing mapped) a write
of one byte at offset `0` has `o + len = 1 < 2 ^ 64 - 4095`; `writeAll` finds
`o + len` inside the file, does not resize, and copies into the absent
mapping. -/
theorem writeAll_after_overflow_faults :
    runMemoryOps [.truncate (2 ^ 64 - 1)] (MemoryNode.new fun _ => 0) = .ok sampleOverflowed ∧
    MemoryFile.new.offset + [88].length < 2 ^ 64 - 4095 ∧
    ¬ (MemoryFile.new.offset + [88].length > sampleOverflowed.fileSize) ∧
    sampleOverflowed.mapping = none ∧
    MemoryFile.new.writeAll sampleOverflowed [88] = .error .badAccess := by
  refine ⟨rfl, by decide, by decide, by decide, rfl⟩

end tmp_fs
